import Mathlib

/-!
Verification development for the `valorant_thesis` repository.

The repository has two source files:
* `src/analyze_local_pt.py` — event extraction pipeline (`ValorantAnalyzerV2`):
  detection ingest, smoke classification, kill-pair resolution, kill
  stabilization, spike-plant detection, event sequencing, focal-point
  attribution.
* `src/render_annotation_fixed.py` — adaptive timeline renderer
  (`create_tracking_highlight`): event-window mask, speed-multiplier
  computation, and the fractional-cursor stepping loop.

The shallow embedding below translates the relevant Python code to Lean:
Python floats become exact rationals (`ℚ`), Python ints become `ℤ`/`ℕ`,
Python lists become `List`, dictionaries with a fixed key set become
structures, and the external detector (`model.predict(img, conf=c)`) is
modelled by its documented contract: it returns, for each region,
the candidate detections of that frame whose confidence is at least the
requested floor.  Comparisons that the Python code performs on real-valued
Euclidean distances (`sqrt`) are embedded by the equivalent exact
comparisons on squared distances, which preserves every branch outcome.
-/

namespace VT

/-- Python-style `int()` truncation toward zero on a rational. -/
def pyInt (q : ℚ) : ℤ := if 0 ≤ q then ⌊q⌋ else ⌈q⌉

/-- Last character of a string (Python `s[-1]`); the detector's class names
are nonempty, so the default branch is never exercised on real labels. -/
def lastChar (s : String) : Char := s.data.getLastD 'A'

/-- `t` occurs as a contiguous substring of `l` (Python `t in s`). -/
def subListOf (pat : List Char) : List Char → Bool
  | [] => pat.isEmpty
  | c :: rest => pat.isPrefixOf (c :: rest) || subListOf pat rest

/-- Python `pat in s` for strings. -/
def strHasSub (s pat : String) : Bool := subListOf pat.data s.data

/-- Python `s.endswith(t)`. -/
def strEndsWith (s t : String) : Bool := t.data.isSuffixOf s.data

/-- A raw detection returned by the external detector for one region of one
frame: class label, box center `x`,`y` (`int(...)` in the code), box width
and height, and confidence (`analyze_local_pt.py`, lines 86–112). -/
structure RawDet where
  cls : String
  x : ℤ
  y : ℤ
  w : ℚ
  h : ℚ
  conf : ℚ
deriving DecidableEq, Repr

/-- A trail record: `{"frame", "class", "x", "y", "color"}`
(`analyze_local_pt.py`, lines 105–110). -/
structure TrailObj where
  frame : ℕ
  cls : String
  x : ℤ
  y : ℤ
  color : ℤ × ℤ × ℤ
deriving DecidableEq, Repr

/-- A kill-feed prediction `{'class', 'x', 'confidence'}`
(`analyze_local_pt.py`, lines 126–130). -/
structure KillPred where
  cls : String
  x : ℤ
  confidence : ℚ
deriving DecidableEq, Repr

/-- A raw kill detection / confirmed kill `{"frame", "killer", "victim"}`
(`analyze_local_pt.py`, lines 134–138 and 379). -/
structure RawKill where
  frame : ℕ
  killer : String
  victim : String
deriving DecidableEq, Repr

/-- A planar position `{"x", "y"}`. -/
structure Pos where
  x : ℤ
  y : ℤ
deriving DecidableEq, Repr

/-- A persisted event.  Python uses dictionaries with a varying key set;
keys absent from a given variant are modelled by `none`
(`analyze_local_pt.py`, lines 167–174, 208–215, 323–332). -/
structure Event where
  frame : ℕ
  type : String
  killer : String
  victim : String
  k_pos : Option Pos
  v_pos : Option Pos
  type_detail : Option String
  category : Option String
deriving DecidableEq, Repr

/-- `LOW_CONF_LABELS` (`analyze_local_pt.py`, lines 62–71). -/
def LOW_CONF_LABELS : List String :=
  ["astra_star_enemy", "astra_star_friend", "astra_ult_enemy",
   "fade_haunt_f", "fade_prowler_f", "smoke", "sova_drone_e", "sova_recon_e"]

/-- `TACTICAL_LABELS` ability → category table
(`analyze_local_pt.py`, lines 28–45). -/
def TACTICAL_LABELS : List (String × String) :=
  [("smoke", "Area Control"), ("smoke_friend", "Area Control"),
   ("smoke_enemy", "Area Control"), ("astra_ult_enemy", "Ultimate"),
   ("astra_ult_friend", "Ultimate"), ("viper_pit_enemy", "Ultimate"),
   ("viper_pit_friend", "Ultimate"), ("fade_haunt_f", "Recon"),
   ("fade_prowler_f", "Recon"), ("sova_drone_e", "Recon"),
   ("sova_recon_e", "Recon"), ("skye_dog_e", "Recon"),
   ("skye_bird_e", "Recon")]

/-- Per-label confidence threshold applied to minimap detections:
`0.08` for `LOW_CONF_LABELS`, `0.25` otherwise
(`analyze_local_pt.py`, lines 92–98). -/
def labelThreshold (cls : String) : ℚ :=
  if cls ∈ LOW_CONF_LABELS then 0.08 else 0.25

/-- The external detector invoked as `model.predict(img, conf=floor)`:
by its documented contract it yields exactly the candidate detections of
the region whose confidence is at least `floor`. -/
def predictFloor (floor : ℚ) (cands : List RawDet) : List RawDet :=
  cands.filter (fun d => floor ≤ d.conf)

/-- Box color by label suffix (`analyze_local_pt.py`, line 104). -/
def colorOf (cls : String) : ℤ × ℤ × ℤ :=
  if strEndsWith cls "f" then (0, 255, 0)
  else if strEndsWith cls "e" then (0, 0, 255)
  else (0, 255, 255)

/-- Build the trail record for a surviving minimap detection
(`analyze_local_pt.py`, lines 105–110). -/
def mkTrailObj (frame : ℕ) (d : RawDet) : TrailObj :=
  ⟨frame, d.cls, d.x, d.y, colorOf d.cls⟩

/-- Per-frame minimap ingest: the detector is called with floor `0.08`,
then each detection is kept only if its confidence reaches its label's
threshold and its box is at least 5×5 pixels
(`analyze_local_pt.py`, lines 84–102). -/
def minimapSurvivors (cands : List RawDet) : List RawDet :=
  (predictFloor 0.08 cands).filter
    (fun d => decide (labelThreshold d.cls ≤ d.conf) &&
      decide ((5 : ℚ) ≤ d.w) && decide ((5 : ℚ) ≤ d.h))

/-- Kill-feed batch for one sampled frame: the detector is called with
floor `0.20` and every returned box is recorded as a prediction
(`analyze_local_pt.py`, lines 120–130). -/
def killPreds (cands : List RawDet) : List KillPred :=
  (predictFloor 0.20 cands).map (fun d => ⟨d.cls, d.x, d.conf⟩)

/-- Spike-UI batch for one sampled frame: the detector is called with
floor `0.50` (`analyze_local_pt.py`, line 148). -/
def spikeBatch (cands : List RawDet) : List RawDet :=
  predictFloor 0.50 cands

/-! ### `_find_best_kill_pair_strict` (`analyze_local_pt.py`, lines 337–356) -/

/-- `sorted(preds, key=lambda x: x['x'])` — Python's sort is stable, as is
`List.mergeSort`. -/
def sortByX (preds : List KillPred) : List KillPred :=
  preds.mergeSort (fun a b => a.x ≤ b.x)

/-- Summed confidence of a candidate pair (`score = k['confidence'] +
v['confidence']`, line 351). -/
def pairScore (kv : KillPred × KillPred) : ℚ :=
  kv.1.confidence + kv.2.confidence

/-- One iteration of the double loop over killer×victim candidates
(lines 347–354): skip `k == v`, skip same trailing faction character,
otherwise take the pair when its score strictly beats the best so far. -/
def killPairStep (acc : Option (String × String) × ℚ) (kv : KillPred × KillPred) :
    Option (String × String) × ℚ :=
  if kv.1 = kv.2 then acc
  else if lastChar kv.1.cls = lastChar kv.2.cls then acc
  else if acc.2 < pairScore kv then (some (kv.1.cls, kv.2.cls), pairScore kv)
  else acc

/-- `killers = [p for p in row_sorted if p['x'] < min_x + 40]` (line 343):
the leftmost cluster, within 40px of the minimum x. -/
def killerCands (preds : List KillPred) : List KillPred :=
  match (sortByX preds).head? with
  | some p0 => (sortByX preds).filter (fun p => p.x < p0.x + 40)
  | none => []

/-- `victims = [p for p in row_sorted if p['x'] > max_x - 40]` (line 344):
the rightmost cluster, within 40px of the maximum x. -/
def victimCands (preds : List KillPred) : List KillPred :=
  match (sortByX preds).getLast? with
  | some pl => (sortByX preds).filter (fun p => pl.x - 40 < p.x)
  | none => []

/-- `_find_best_kill_pair_strict`: fewer than two detections fails; the
leftmost cluster (within 40px of the minimum x) gives killer candidates and
the rightmost cluster (within 40px of the maximum x) gives victim
candidates; a horizontal spread under 50px fails; otherwise scan all pairs
keeping the first strict maximum of summed confidence
(`analyze_local_pt.py`, lines 337–356; the returned `""` third component is
constant and omitted). -/
def findBestKillPairStrict (preds : List KillPred) : Option (String × String) :=
  if preds.length < 2 then none
  else
    match (sortByX preds).head?, (sortByX preds).getLast? with
    | some p0, some pl =>
      if pl.x - p0.x < 50 then none
      else
        (((killerCands preds).product (victimCands preds)).foldl
          killPairStep (none, -999)).1
    | _, _ => none

/-! ### `_stabilize_kills_tuned` (`analyze_local_pt.py`, lines 358–391) -/

/-- Temporal grouping (lines 360–370): a raw detection joins the current
group while its victim equals the previous detection's victim and the frame
gap is under `fps * 2.0`; otherwise it starts a new group. -/
def groupRawAux (fps : ℚ) : RawKill → List RawKill → List RawKill → List (List RawKill)
  | _, cur, [] => [cur.reverse]
  | prev, cur, r :: rest =>
    if r.victim = prev.victim ∧ ((r.frame : ℚ) - prev.frame < fps * 2) then
      groupRawAux fps r (r :: cur) rest
    else
      cur.reverse :: groupRawAux fps r [r] rest

/-- Split the ordered raw detections into consecutive groups. -/
def groupRaw (fps : ℚ) : List RawKill → List (List RawKill)
  | [] => []
  | r :: rest => groupRawAux fps r [r] rest

/-- First label attaining the maximal multiplicity in `l`, scanning the
labels in first-seen order — the behaviour of
`Counter(l).most_common(1)[0][0]` in CPython (insertion-ordered counter,
stable sort by descending count).  The default `""` is only reached on an
empty list, which the caller excludes (groups have length ≥ 2). -/
def mostCommon (l : List String) : String :=
  let distinct := l.foldl (fun acc s => if s ∈ acc then acc else acc ++ [s]) []
  (distinct.foldl
    (fun (acc : Option String × ℕ) s =>
      if acc.2 < l.count s then (some s, l.count s) else acc)
    (none, 0)).1.getD ""

/-- Majority vote and representative frame for one surviving group
(lines 372–379): most frequent killer and victim labels, frame of the
middle element by list position. -/
def voteGroup (group : List RawKill) : RawKill :=
  { frame := (group.getD (group.length / 2) ⟨0, "", ""⟩).frame
    killer := mostCommon (group.map (·.killer))
    victim := mostCommon (group.map (·.victim)) }

/-- Cross-group deduplication (lines 380–391): a voted kill is dropped when
an already-accepted kill with the same (killer, victim) pair lies less than
`fps * 5.0` frames before it.  The accumulator is kept reversed. -/
def dedupKillsAux (fps : ℚ) : List RawKill → List RawKill → List RawKill
  | acc, [] => acc.reverse
  | acc, c :: rest =>
    if acc.any (fun p =>
        decide (p.killer = c.killer) && decide (p.victim = c.victim) &&
        decide ((c.frame : ℚ) - p.frame < fps * 5)) then
      dedupKillsAux fps acc rest
    else
      dedupKillsAux fps (c :: acc) rest

/-- `_stabilize_kills_tuned`: group, drop groups of size < 2, majority-vote
each group, then deduplicate (`analyze_local_pt.py`, lines 358–391). -/
def stabilizeKillsTuned (raw : List RawKill) (fps : ℚ) : List RawKill :=
  match raw with
  | [] => []
  | _ :: _ =>
    let groups := groupRaw fps raw
    let temp := (groups.filter (fun g => decide (2 ≤ g.length))).map voteGroup
    dedupKillsAux fps [] temp

/-! ### `_find_agent_pos` (`analyze_local_pt.py`, lines 393–405) -/

/-- Candidate filter: with `look_back` the detection must satisfy
`0 ≤ frame - t.frame < search_range`; otherwise `|t.frame - frame| <
search_range` (lines 394–401). -/
def agentPosCand (frame : ℕ) (name : String) (range : ℕ) (lookBack : Bool)
    (t : TrailObj) : Bool :=
  (if lookBack then
    decide (t.frame ≤ frame) && decide ((frame : ℤ) - t.frame < range)
  else
    decide (|(t.frame : ℤ) - frame| < range)) && decide (t.cls = name)

/-- Python `min(candidates, key=...)`: first element attaining the minimal
key wins. -/
def argminAbsFrame (frame : ℕ) (cands : List TrailObj) : Option TrailObj :=
  cands.foldl
    (fun acc t =>
      match acc with
      | none => some t
      | some b => if |(t.frame : ℤ) - frame| < |(b.frame : ℤ) - frame| then some t else acc)
    none

/-- `_find_agent_pos`: nearest trail detection of the given class inside the
window, or `None` (`analyze_local_pt.py`, lines 393–405). -/
def findAgentPos (trail : List TrailObj) (frame : ℕ) (name : String)
    (range : ℕ) (lookBack : Bool) : Option Pos :=
  match argminAbsFrame frame (trail.filter (agentPosCand frame name range lookBack)) with
  | some t => some ⟨t.x, t.y⟩
  | none => none

/-! ### Event sequencing (`analyze_local_pt.py`, lines 187–215) -/

/-- Tag of the kill at position `i` out of `n`: the first is `first_blood`,
the last is `last_kill`, an interior kill is `multi_kill` when its killer's
most recent previous kill (looked up in `last_kill_time_by_player`) is less
than `fps * 3.0` frames before, and `kill` otherwise (lines 192–201). -/
def tagOf (n i : ℕ) (k : RawKill) (dict : List (String × ℕ)) (fps : ℚ) : String :=
  if i = 0 then "first_blood"
  else if i = n - 1 then "last_kill"
  else
    match dict.lookup k.killer with
    | some prev => if (k.frame : ℚ) - prev < fps * 3 then "multi_kill" else "kill"
    | none => "kill"

/-- The loop of lines 191–203: walk the sorted kills, tagging each and then
recording its killer's frame in the per-player dictionary (modelled as an
association list where the most recent insertion shadows older ones). -/
def tagKillsAux (n : ℕ) (fps : ℚ) : ℕ → List (String × ℕ) → List RawKill →
    List (RawKill × String)
  | _, _, [] => []
  | i, dict, k :: rest =>
    (k, tagOf n i k dict fps) :: tagKillsAux n fps (i + 1) ((k.killer, k.frame) :: dict) rest

/-- Tag all confirmed kills in frame order. -/
def tagKills (ks : List RawKill) (fps : ℚ) : List (RawKill × String) :=
  tagKillsAux ks.length fps 0 [] ks

/-- Materialization of a tagged kill (lines 205–215): only `first_blood`,
`multi_kill` and `last_kill` become persisted events, with positions looked
up backward over a 90-frame window. -/
def materializeKill (trail : List TrailObj) (kt : RawKill × String) :
    Option Event :=
  if kt.2 = "first_blood" ∨ kt.2 = "multi_kill" ∨ kt.2 = "last_kill" then
    some
      { frame := kt.1.frame, type := kt.2, killer := kt.1.killer,
        victim := kt.1.victim,
        k_pos := findAgentPos trail kt.1.frame kt.1.killer 90 true,
        v_pos := findAgentPos trail kt.1.frame kt.1.victim 90 true,
        type_detail := none, category := none }
  else none

/-- The kill events appended by lines 187–215: sort the confirmed kills by
frame (`confirmed_kills.sort`, stable), tag, and materialize. -/
def killEvents (confirmed : List RawKill) (trail : List TrailObj) (fps : ℚ) :
    List Event :=
  let sorted := confirmed.mergeSort (fun a b => a.frame ≤ b.frame)
  (tagKills sorted fps).filterMap (materializeKill trail)

/-! ### `_classify_smokes` (`analyze_local_pt.py`, lines 230–269) -/

/-- Squared planar distance between a smoke detection and a star detection.
The Python code compares the real distances `d < 30` and `d < min_dist`;
both operands are nonnegative, so comparing squares is equivalent. -/
def sqDist (a b : TrailObj) : ℤ := (a.x - b.x) ^ 2 + (a.y - b.y) ^ 2

/-- One scan of a star list (lines 252–264): a star within the 5-second
lookback window and radius 30 that is strictly nearer than the best so far
rebinds the smoke's prospective label.  Distances are tracked squared;
`min_dist` starts at 999, i.e. squared `998001`. -/
def smokeScan (t : TrailObj) (minFrame : ℤ) (lbl : String)
    (acc : Option String × ℤ) (star : TrailObj) : Option String × ℤ :=
  if minFrame ≤ (star.frame : ℤ) ∧ (star.frame : ℤ) ≤ (t.frame : ℤ) ∧
      sqDist t star < 900 ∧ sqDist t star < acc.2 then
    (some lbl, sqDist t star)
  else acc

/-- Classify one trail record (lines 243–268): only `"smoke"` records are
candidates; friendly stars are scanned before enemy stars; on success the
class is rewritten in place. -/
def classifyOne (fps : ℚ) (friends enemies : List TrailObj) (t : TrailObj) :
    TrailObj :=
  if t.cls = "smoke" then
    let minFrame : ℤ := (t.frame : ℤ) - pyInt (fps * 5)
    let a1 := friends.foldl (smokeScan t minFrame "smoke_friend") (none, 998001)
    let a2 := enemies.foldl (smokeScan t minFrame "smoke_enemy") a1
    match a2.1 with
    | some c => { t with cls := c }
    | none => t
  else t

/-- `_classify_smokes`: relabel every ambiguous smoke using nearby
astra-star markers (`analyze_local_pt.py`, lines 230–269). -/
def classifySmokes (fps : ℚ) (trail : List TrailObj) : List TrailObj :=
  let friends := trail.filter (fun t => t.cls = "astra_star_friend")
  let enemies := trail.filter (fun t => t.cls = "astra_star_enemy")
  trail.map (classifyOne fps friends enemies)

/-! ### `_analyze_focal_points` (`analyze_local_pt.py`, lines 271–335) -/

/-- A label is a tactical ability iff it is a key of `TACTICAL_LABELS`. -/
def isTactical (cls : String) : Bool := (TACTICAL_LABELS.lookup cls).isSome

/-- Friendly-tagged ability (line 298): the label contains `"friend"` or
ends with `"_f"`. -/
def friendlyTag (cls : String) : Bool :=
  strHasSub cls "friend" || strEndsWith cls "_f"

/-- `delta_t = (ev_frame - ab_frame) / fps` (lines 301–302). -/
def deltaT (fps : ℚ) (evFrame : ℕ) (ab : TrailObj) : ℚ :=
  ((evFrame : ℚ) - (ab.frame : ℚ)) / fps

/-- Squared planar distance between an event anchor and an ability. -/
def sqDistP (p : Pos) (ab : TrailObj) : ℤ :=
  (p.x - ab.x) ^ 2 + (p.y - ab.y) ^ 2

/-- The reciprocal of the squared score: the code compares real scores
`score = 1/Δt² · 1/max(dist,1)` with `dist = √(sqDistP)`; since all scores
of valid candidates are positive, `score a > score b` is equivalent to
`invScoreSq a < invScoreSq b` where
`invScoreSq = Δt⁴ · max(dist², 1) = (Δt² · max(dist, 1))²`. -/
def invScoreSq (fps : ℚ) (evFrame : ℕ) (p : Pos) (ab : TrailObj) : ℚ :=
  (deltaT fps evFrame ab) ^ 4 * max ((sqDistP p ab : ℚ)) 1

/-- Candidate validity for one ability against one event (lines 293–304):
friendly abilities are skipped when the anchor is a spike plant, and the
ability must lie strictly between 1 and 10 seconds before the event. -/
def focalCand (evType : String) (fps : ℚ) (evFrame : ℕ) (ab : TrailObj) : Bool :=
  (if evType = "spike_plant" then !(friendlyTag ab.cls) else true) &&
  decide (1 < deltaT fps evFrame ab) && decide (deltaT fps evFrame ab < 10)

/-- One step of the maximum-score scan (lines 293–312).  `max_score` starts
at `-1` and every valid candidate's score is positive, so the first valid
candidate always replaces the empty accumulator; afterwards a candidate
wins iff its score is strictly greater, i.e. its `invScoreSq` is strictly
smaller. -/
def bestAbilityStep (evType : String) (fps : ℚ) (evFrame : ℕ) (p : Pos)
    (acc : Option (TrailObj × ℚ)) (ab : TrailObj) : Option (TrailObj × ℚ) :=
  if focalCand evType fps evFrame ab then
    match acc with
    | none => some (ab, invScoreSq fps evFrame p ab)
    | some (_, bi) =>
      if invScoreSq fps evFrame p ab < bi then some (ab, invScoreSq fps evFrame p ab)
      else acc
  else acc

/-- Scan all tactical abilities for the best-scoring candidate of one
event. -/
def bestAbilityFor (evType : String) (fps : ℚ) (evFrame : ℕ) (p : Pos)
    (abilities : List TrailObj) : Option (TrailObj × ℚ) :=
  abilities.foldl (bestAbilityStep evType fps evFrame p) none

/-- Build the focal-point event for an attributed ability (lines 322–332). -/
def mkFocalEvent (ab : TrailObj) : Event :=
  { frame := ab.frame, type := "focal_point",
    killer := (TACTICAL_LABELS.lookup ab.cls).getD "", victim := "",
    k_pos := some ⟨ab.x, ab.y⟩, v_pos := none,
    type_detail := some ab.cls,
    category := some ((TACTICAL_LABELS.lookup ab.cls).getD "") }

/-- The per-event attribution (lines 287–314): the best-scoring candidate
is attributed exactly when its score clears the `0.01` floor, i.e. when
its `invScoreSq` is below `10000 = (1/0.01)²`. -/
def focalChoice (evType : String) (fps : ℚ) (evFrame : ℕ) (p : Pos)
    (abilities : List TrailObj) : Option TrailObj :=
  match bestAbilityFor evType fps evFrame p abilities with
  | some (ab, inv) => if inv < 10000 then some ab else none
  | none => none

/-- Processing of one event (lines 280–332): skip focal points and events
without an anchor position (killer position preferred, else victim); pick
the best-scoring candidate above the `0.01` floor; drop the attribution
when a previously accepted focal event has the same `type_detail` within
10 frames. -/
def focalStep (abilities : List TrailObj) (fps : ℚ) (acc : List Event)
    (ev : Event) : List Event :=
  if ev.type = "focal_point" then acc
  else
    match ev.k_pos.orElse (fun _ => ev.v_pos) with
    | none => acc
    | some p =>
      match focalChoice ev.type fps ev.frame p abilities with
      | none => acc
      | some ab =>
        if acc.any (fun fe =>
            decide (fe.type_detail = some ab.cls) &&
            decide (|(fe.frame : ℤ) - (ab.frame : ℤ)| < 10)) then acc
        else acc ++ [mkFocalEvent ab]

/-- `_analyze_focal_points`: the new focal events produced from the
persisted events and the (smoke-classified) trail
(`analyze_local_pt.py`, lines 271–335). -/
def analyzeFocalPoints (events : List Event) (trail : List TrailObj)
    (fps : ℚ) : List Event :=
  let abilities := trail.filter (fun t => isTactical t.cls)
  events.foldl (focalStep abilities fps) []

/-! ### The main scan and `run_analysis` (`analyze_local_pt.py`, lines 47–226) -/

/-- The external detector's raw candidates for the three regions of one
frame.  `model.predict(region, conf=c)` is modelled as the confidence
filter `predictFloor c` over these candidates. -/
structure FrameData where
  minimapRaw : List RawDet
  killRaw : List RawDet
  spikeRaw : List RawDet

/-- Mutable state of the per-frame scan: the trail, the raw kill
detections, the events list, and the one-shot spike flag. -/
structure ScanState where
  trail : List TrailObj
  rawKills : List RawKill
  events : List Event
  planted : Bool
deriving DecidableEq, Repr

/-- The spike-plant event of lines 167–174. -/
def mkSpikeEvent (frame : ℕ) (p : Pos) : Event :=
  { frame := frame, type := "spike_plant", killer := "Spike", victim := "Site",
    k_pos := some p, v_pos := some p, type_detail := none, category := none }

/-- Kill-feed part of one loop iteration (lines 114–138): every third
frame, when the kill-feed crop fits inside the `W × H` frame, resolve the
best kill pair and record it. -/
def killStepPart (W H i : ℕ) (fd : FrameData) (s1 : ScanState) : ScanState :=
  if i % 3 = 0 ∧ 165 + 70 ≤ H ∧ 1207 + 440 ≤ W then
    match findBestKillPairStrict (killPreds fd.killRaw) with
    | some (k, v) => { s1 with rawKills := s1.rawKills ++ [⟨i, k, v⟩] }
    | none => s1
  else s1

/-- Spike-plant part of one loop iteration (lines 140–175): every third
frame, when not already planted and the spike-UI crop fits, a UI detection
above the `0.50` floor coinciding with a `minimap_spike` marker at
`y < 200` emits the one `spike_plant` event and makes the state
terminal. -/
def spikeStepPart (W H i : ℕ) (fd : FrameData) (objs : List TrailObj)
    (s2 : ScanState) : ScanState :=
  if ¬ s2.planted ∧ i % 3 = 0 ∧ 96 + 93 ≤ H ∧ 748 + 162 ≤ W then
    if (spikeBatch fd.spikeRaw).any (fun d => d.cls = "ui_spike_plant") then
      match objs.find? (fun o => o.cls = "minimap_spike") with
      | some o =>
        if o.y < 200 then
          { s2 with events := s2.events ++ [mkSpikeEvent i ⟨o.x, o.y⟩],
                    planted := true }
        else s2
      | none => s2
    else s2
  else s2

/-- One iteration of the frame loop (lines 73–179) for frame `i` of a
`W × H` video: minimap ingest (always), kill-feed resolution (every third
frame, when the crop fits the frame), spike-plant detection (every third
frame, when not already planted and the crop fits). -/
def frameStep (W H : ℕ) (fd : FrameData) (s : ScanState) (i : ℕ) : ScanState :=
  let objs := (minimapSurvivors fd.minimapRaw).map (mkTrailObj i)
  spikeStepPart W H i fd objs
    (killStepPart W H i fd { s with trail := s.trail ++ objs })

/-- The full frame scan over `total` frames. -/
def runScan (W H total : ℕ) (frames : ℕ → FrameData) : ScanState :=
  (List.range total).foldl (fun s i => frameStep W H (frames i) s i) ⟨[], [], [], false⟩

/-- `run_analysis` after the scan (lines 181–223): classify smokes,
stabilize kills, append the sequenced kill events, append the focal-point
events, and sort everything by frame (Python's stable `sort`).  Returns
the persisted `(events, trails)` pair of `match_data.json`. -/
def runAnalysis (W H total : ℕ) (frames : ℕ → FrameData) (fps : ℚ) :
    List Event × List TrailObj :=
  let s := runScan W H total frames
  let trail := classifySmokes fps s.trail
  let confirmed := stabilizeKillsTuned s.rawKills fps
  let evs1 := s.events ++ killEvents confirmed trail fps
  let evs2 := evs1 ++ analyzeFocalPoints evs1 trail fps
  (evs2.mergeSort (fun a b => a.frame ≤ b.frame), trail)

/-! ### The adaptive timeline renderer
(`render_annotation_fixed.py`, lines 41–94 and 162–372) -/

/-- Pre/post window sizes (lines 42–47): all are `int(fps * k)`. -/
def KILL_PRE (fps : ℚ) : ℤ := pyInt (fps * 3)

/-- `KILL_POST = int(fps * 3.0)`. -/
def KILL_POST (fps : ℚ) : ℤ := pyInt (fps * 3)

/-- `SPIKE_PRE = int(fps * 3.0)`. -/
def SPIKE_PRE (fps : ℚ) : ℤ := pyInt (fps * 3)

/-- `SPIKE_POST = int(fps * 2.0)`. -/
def SPIKE_POST (fps : ℚ) : ℤ := pyInt (fps * 2)

/-- `FOCAL_PRE = int(fps * 5.0)`. -/
def FOCAL_PRE (fps : ℚ) : ℤ := pyInt (fps * 5)

/-- `FOCAL_POST = int(fps * 3.0)`. -/
def FOCAL_POST (fps : ℚ) : ℤ := pyInt (fps * 3)

/-- The unclamped `[start_f, end_f)` window of one event (lines 55–65):
spike plants use 3s/2s, focal points 5s/3s, every other (kill-class) event
3s/3s. -/
def windowOf (fps : ℚ) (ev : Event) : ℤ × ℤ :=
  if ev.type = "spike_plant" then
    ((ev.frame : ℤ) - SPIKE_PRE fps, (ev.frame : ℤ) + SPIKE_POST fps)
  else if ev.type = "focal_point" then
    ((ev.frame : ℤ) - FOCAL_PRE fps, (ev.frame : ℤ) + FOCAL_POST fps)
  else
    ((ev.frame : ℤ) - KILL_PRE fps, (ev.frame : ℤ) + KILL_POST fps)

/-- The boolean mask `is_event_frame` (lines 53–70): frame `f` is marked
iff some event's window, clamped to `[0, total)`, contains it; overlapping
windows OR together. -/
def isEventFrame (events : List Event) (total : ℕ) (fps : ℚ) (f : ℕ) : Bool :=
  events.any (fun ev =>
    decide (max 0 (windowOf fps ev).1 ≤ (f : ℤ)) &&
    decide ((f : ℤ) < min (total : ℤ) (windowOf fps ev).2))

/-- `event_frames_count = np.sum(is_event_frame)` (line 73). -/
def eventFramesCount (events : List Event) (total : ℕ) (fps : ℚ) : ℕ :=
  (List.range total).countP (isEventFrame events total fps)

/-- `target_total_output_frames = int(30.0 * fps)` (lines 76–77). -/
def targetFrames (fps : ℚ) : ℤ := pyInt (30 * fps)

/-- Speed computation (lines 79–94): with `E` event frames,
`N = total − E` non-event frames and `T` target output frames, if
`T − E ≤ 0` the multiplier is the extreme skip value `100` and the warning
flag is raised; otherwise the multiplier is `N / (T − E)`.  The second
component is the warning flag — the code prints a warning and proceeds. -/
def speedMultiplier (events : List Event) (total : ℕ) (fps : ℚ) : ℚ × Bool :=
  let E := eventFramesCount events total fps
  if targetFrames fps - (E : ℤ) ≤ 0 then (100, true)
  else (((total - E : ℕ) : ℚ) / ((targetFrames fps : ℚ) - (E : ℚ)), false)

/-- One step of the stepping loop (lines 168–368): read frame
`int(cursor)`, then advance by `1.0` inside an event window and by the
speed multiplier otherwise. -/
def stepCursor (events : List Event) (total : ℕ) (fps : ℚ) (c : ℚ) : ℚ :=
  if isEventFrame events total fps (⌊c⌋).toNat then c + 1
  else c + (speedMultiplier events total fps).1

/-- The stepping loop `while current_input_frame < total_frames`
(line 168), written with explicit fuel; once the cursor reaches the total
frame count the value is stable. -/
def runLoop (events : List Event) (total : ℕ) (fps : ℚ) : ℚ → ℕ → ℚ
  | c, 0 => c
  | c, n + 1 =>
    if c < (total : ℚ) then runLoop events total fps (stepCursor events total fps c) n
    else c

/-! ## Lemmas about the renderer's mask and speed computation -/

/-- For an in-range frame the clamping of a window to `[0, total)` is
invisible: the mask holds iff some unclamped window contains the frame. -/
lemma isEventFrame_iff (events : List Event) (total : ℕ) (fps : ℚ) (f : ℕ)
    (hf : f < total) :
    isEventFrame events total fps f = true ↔
      ∃ ev ∈ events, (windowOf fps ev).1 ≤ (f : ℤ) ∧ (f : ℤ) < (windowOf fps ev).2 := by
  have hf' : (f : ℤ) < (total : ℤ) := by exact_mod_cast hf
  simp only [isEventFrame, List.any_eq_true, Bool.and_eq_true, decide_eq_true_eq,
    max_le_iff, lt_min_iff]
  constructor
  · rintro ⟨ev, hev, ⟨_, h1⟩, _, h2⟩
    exact ⟨ev, hev, h1, h2⟩
  · rintro ⟨ev, hev, h1, h2⟩
    exact ⟨ev, hev, ⟨Int.natCast_nonneg f, h1⟩, hf', h2⟩

/-- The number of marked frames never exceeds the input length. -/
lemma eventFramesCount_le (events : List Event) (total : ℕ) (fps : ℚ) :
    eventFramesCount events total fps ≤ total := by
  simpa [eventFramesCount] using
    List.countP_le_length (l := List.range total) (p := isEventFrame events total fps)

/-- **C1.**  The renderer marks every frame inside any persisted event's
pre/post window (kills 3s/3s, spike plants 3s/2s, focal points 5s/3s,
overlapping windows ORed) in a boolean mask over the whole input length;
with `E` the count of marked frames, `N = total − E` and
`T = int(30·fps)` the target output frame count, if `T − E ≤ 0` the
non-event multiplier is the extreme skip value `100` and the warning flag
is raised (the renderer proceeds); otherwise the non-event speed
multiplier equals `N / (T − E)`. -/
theorem C1_renderer_mask_and_speed (events : List Event) (total : ℕ) (fps : ℚ) :
    (∀ ev : Event, ev.type = "spike_plant" →
      windowOf fps ev = ((ev.frame : ℤ) - pyInt (fps * 3), (ev.frame : ℤ) + pyInt (fps * 2))) ∧
    (∀ ev : Event, ev.type = "focal_point" →
      windowOf fps ev = ((ev.frame : ℤ) - pyInt (fps * 5), (ev.frame : ℤ) + pyInt (fps * 3))) ∧
    (∀ ev : Event, ev.type ≠ "spike_plant" → ev.type ≠ "focal_point" →
      windowOf fps ev = ((ev.frame : ℤ) - pyInt (fps * 3), (ev.frame : ℤ) + pyInt (fps * 3))) ∧
    (∀ f : ℕ, f < total →
      (isEventFrame events total fps f = true ↔
        ∃ ev ∈ events, (windowOf fps ev).1 ≤ (f : ℤ) ∧ (f : ℤ) < (windowOf fps ev).2)) ∧
    (targetFrames fps - (eventFramesCount events total fps : ℤ) ≤ 0 →
      speedMultiplier events total fps = (100, true)) ∧
    (0 < targetFrames fps - (eventFramesCount events total fps : ℤ) →
      speedMultiplier events total fps =
        (((total - eventFramesCount events total fps : ℕ) : ℚ) /
          ((targetFrames fps : ℚ) - (eventFramesCount events total fps : ℚ)), false)) := by
  refine ⟨?_, ?_, ?_, isEventFrame_iff events total fps, ?_, ?_⟩
  · intro ev h; simp [windowOf, h, SPIKE_PRE, SPIKE_POST]
  · intro ev h
    have : ev.type ≠ "spike_plant" := by simp [h]
    simp [windowOf, h, this, FOCAL_PRE, FOCAL_POST]
  · intro ev h1 h2; simp [windowOf, h1, h2, KILL_PRE, KILL_POST]
  · intro h; simp only [speedMultiplier]; rw [if_pos h]
  · intro h; simp only [speedMultiplier]; rw [if_neg (by omega)]

/-- Witness for C1 at concrete inputs: a spike-plant window at frame 53
with `fps = 1` is `[50, 55)` and frame 52 is marked; an empty event list
with `fps = 0` hits the warning branch; an empty event list over 30 frames
at `fps = 1` yields multiplier `30 / 30 = 1`. -/
theorem C1_renderer_mask_and_speed_witness :
    windowOf 1 ⟨53, "spike_plant", "Spike", "Site", none, none, none, none⟩ = (50, 55) ∧
    isEventFrame [⟨53, "spike_plant", "Spike", "Site", none, none, none, none⟩] 180 1 52 = true ∧
    speedMultiplier [] 1 0 = (100, true) ∧
    speedMultiplier [] 30 1 = (1, false) := by
  have hE1 : eventFramesCount [] 1 0 = 0 := by
    simp [eventFramesCount, isEventFrame]
  have hE30 : eventFramesCount ([] : List Event) 30 1 = 0 := by
    simp [eventFramesCount, isEventFrame]
  have hw : windowOf 1 ⟨53, "spike_plant", "Spike", "Site", none, none, none, none⟩
      = (50, 55) := by
    have h := (C1_renderer_mask_and_speed [] 1 1).1
      ⟨53, "spike_plant", "Spike", "Site", none, none, none, none⟩ rfl
    rw [h]; norm_num [pyInt]
  refine ⟨hw, ?_, ?_, ?_⟩
  · rw [(C1_renderer_mask_and_speed
      [⟨53, "spike_plant", "Spike", "Site", none, none, none, none⟩] 180 1).2.2.2.1
      52 (by norm_num)]
    refine ⟨⟨53, "spike_plant", "Spike", "Site", none, none, none, none⟩, by simp, ?_⟩
    rw [hw]; norm_num
  · have h := (C1_renderer_mask_and_speed [] 1 0).2.2.2.2.1
    rw [h]; rw [hE1]; norm_num [targetFrames, pyInt]
  · have h := (C1_renderer_mask_and_speed [] 30 1).2.2.2.2.2
    rw [h] <;> rw [hE30] <;> norm_num [targetFrames, pyInt]

/-! ## Lemmas about kill stabilization -/

/-- The deduplication guarantee between an earlier accepted kill `p` and a
later accepted kill `c`: identical (killer, victim) forces a gap of at
least `5 · fps` frames. -/
def killDedupOK (fps : ℚ) (p c : RawKill) : Prop :=
  p.killer = c.killer ∧ p.victim = c.victim → 5 * fps ≤ (c.frame : ℚ) - (p.frame : ℚ)

/-- The cross-group deduplication loop only ever accepts a kill after
checking it against every already-accepted kill, so its output is pairwise
deduplicated (in emission order). -/
lemma dedupKillsAux_pairwise (fps : ℚ) (l : List RawKill) :
    ∀ acc : List RawKill, acc.reverse.Pairwise (killDedupOK fps) →
      (dedupKillsAux fps acc l).Pairwise (killDedupOK fps) := by
  induction l with
  | nil => intro acc hacc; simpa [dedupKillsAux] using hacc
  | cons c rest ih =>
    intro acc hacc
    by_cases h : acc.any (fun p =>
        decide (p.killer = c.killer) && decide (p.victim = c.victim) &&
        decide ((c.frame : ℚ) - (p.frame : ℚ) < fps * 5)) = true
    · rw [dedupKillsAux, if_pos h]
      exact ih acc hacc
    · rw [dedupKillsAux, if_neg h]
      refine ih (c :: acc) ?_
      rw [List.reverse_cons, List.pairwise_append]
      refine ⟨hacc, List.pairwise_singleton _ _, ?_⟩
      intro p hp c' hc'
      rw [List.mem_singleton] at hc'
      rw [List.mem_reverse] at hp
      rw [List.any_eq_true] at h
      push_neg at h
      have h2 := h p hp
      intro hkv
      rw [hc'] at hkv ⊢
      obtain ⟨hk, hv⟩ := hkv
      simp [hk, hv] at h2
      linarith [h2]

/-- **C3.**  For every pair of distinct confirmed kills produced by
`_stabilize_kills_tuned` that carry identical killer and victim labels,
the frame distance is at least `5 · fps`: no two confirmed kills with the
same (killer, victim) pair lie within a 5-second window. -/
theorem C3_kill_dedup (raw : List RawKill) (fps : ℚ) (hfps : 0 ≤ fps) :
    (stabilizeKillsTuned raw fps).Pairwise
      (fun k1 k2 => k1.killer = k2.killer ∧ k1.victim = k2.victim →
        5 * fps ≤ |(k2.frame : ℚ) - (k1.frame : ℚ)|) := by
  have key : ∀ l : List RawKill, l.Pairwise (killDedupOK fps) →
      l.Pairwise (fun k1 k2 => k1.killer = k2.killer ∧ k1.victim = k2.victim →
        5 * fps ≤ |(k2.frame : ℚ) - (k1.frame : ℚ)|) := by
    intro l hl
    refine hl.imp ?_
    intro a b hab h
    have := hab h
    have h5 : (0 : ℚ) ≤ 5 * fps := by positivity
    rw [abs_of_nonneg (by linarith)]
    exact this
  cases raw with
  | nil => simp [stabilizeKillsTuned]
  | cons r rest =>
    refine key _ (dedupKillsAux_pairwise fps _ [] ?_)
    simp

/-- Witness for C3: two pairs of raw detections for the same (killer,
victim) 200 frames apart at 30 fps survive as two confirmed kills, and
their gap satisfies the pairwise bound. -/
theorem C3_kill_dedup_witness :
    (0 : ℚ) ≤ 30 ∧
    (stabilizeKillsTuned
        [⟨100, "a", "b"⟩, ⟨103, "a", "b"⟩, ⟨300, "a", "b"⟩, ⟨303, "a", "b"⟩]
        30).Pairwise
      (fun k1 k2 => k1.killer = k2.killer ∧ k1.victim = k2.victim →
        5 * 30 ≤ |(k2.frame : ℚ) - (k1.frame : ℚ)|) :=
  ⟨by norm_num,
   C3_kill_dedup [⟨100, "a", "b"⟩, ⟨103, "a", "b"⟩, ⟨300, "a", "b"⟩, ⟨303, "a", "b"⟩]
     30 (by norm_num)⟩

/-! ## Lemmas about event sequencing -/

/-- The per-player dictionary accumulated while walking `l`, most recent
entry first (the shape `last_kill_time_by_player` has after processing
`l`). -/
def revDictOf : List RawKill → List (String × ℕ)
  | [] => []
  | k :: l => revDictOf l ++ [(k.killer, k.frame)]

lemma tagKillsAux_append (n : ℕ) (fps : ℚ) (l1 : List RawKill) :
    ∀ (l2 : List RawKill) (i0 : ℕ) (d : List (String × ℕ)),
      tagKillsAux n fps i0 d (l1 ++ l2) =
        tagKillsAux n fps i0 d l1 ++
          tagKillsAux n fps (i0 + l1.length) (revDictOf l1 ++ d) l2 := by
  induction l1 with
  | nil => intro l2 i0 d; simp [tagKillsAux, revDictOf]
  | cons k l ih =>
    intro l2 i0 d
    have e1 : tagKillsAux n fps i0 d ((k :: l) ++ l2)
        = (k, tagOf n i0 k d fps) ::
            tagKillsAux n fps (i0 + 1) ((k.killer, k.frame) :: d) (l ++ l2) := rfl
    have e2 : tagKillsAux n fps i0 d (k :: l)
        = (k, tagOf n i0 k d fps) ::
            tagKillsAux n fps (i0 + 1) ((k.killer, k.frame) :: d) l := rfl
    have h1 : i0 + 1 + l.length = i0 + (k :: l).length := by
      simp [List.length_cons]; omega
    have h2 : revDictOf l ++ ((k.killer, k.frame) :: d) = revDictOf (k :: l) ++ d := by
      simp [revDictOf]
    rw [e1, ih, h1, h2, e2]
    simp [List.cons_append]

lemma tagKillsAux_length (n : ℕ) (fps : ℚ) :
    ∀ (l : List RawKill) (i0 : ℕ) (d : List (String × ℕ)),
      (tagKillsAux n fps i0 d l).length = l.length := by
  intro l
  induction l with
  | nil => intro i0 d; simp [tagKillsAux]
  | cons k rest ih => intro i0 d; simp [tagKillsAux, ih]

lemma lookup_revDictOf_none (name : String) :
    ∀ l : List RawKill,
      ((revDictOf l).lookup name = none ↔ ∀ j ∈ l, j.killer ≠ name) := by
  intro l
  induction l with
  | nil => simp [revDictOf]
  | cons k rest ih =>
    simp only [revDictOf, List.lookup_append, Option.or_eq_none, ih,
      List.mem_cons]
    constructor
    · rintro ⟨h1, h2⟩ j hj
      rcases hj with rfl | hj
      · intro hk
        simp [List.lookup, hk] at h2
      · exact h1 j hj
    · intro h
      refine ⟨fun j hj => h j (Or.inr hj), ?_⟩
      have hk := h k (Or.inl rfl)
      simp only [List.lookup]
      have : (name == k.killer) = false := beq_eq_false_iff_ne.mpr (fun hc => hk hc.symm)
      simp [this]

lemma lookup_revDictOf_some (name : String) (p : ℕ) :
    ∀ l : List RawKill, (revDictOf l).lookup name = some p →
      ∃ j ∈ l, j.killer = name ∧ j.frame = p := by
  intro l
  induction l with
  | nil => simp [revDictOf]
  | cons k rest ih =>
    intro h
    rw [revDictOf, List.lookup_append] at h
    rcases hq : (revDictOf rest).lookup name with _ | q
    · rw [hq, Option.none_or] at h
      by_cases hk : name = k.killer
      · simp only [List.lookup, hk] at h
        simp only [beq_self_eq_true, cond_true, Option.some_inj] at h
        exact ⟨k, by simp, hk.symm, h⟩
      · simp [List.lookup, beq_eq_false_iff_ne.mpr hk] at h
    · rw [hq] at h
      simp only [Option.or] at h
      obtain rfl : q = p := by simpa using h
      obtain ⟨j, hj, hjk, hjf⟩ := ih hq
      exact ⟨j, by simp [hj], hjk, hjf⟩

lemma lookup_revDictOf_ge (name : String) (p : ℕ) :
    ∀ l : List RawKill, List.Sorted (fun a b => a.frame ≤ b.frame) l →
      (revDictOf l).lookup name = some p →
      ∀ j ∈ l, j.killer = name → j.frame ≤ p := by
  intro l
  induction l with
  | nil => simp
  | cons k rest ih =>
    intro hs h j hj hjk
    rw [List.sorted_cons] at hs
    rw [revDictOf, List.lookup_append] at h
    rcases hq : (revDictOf rest).lookup name with _ | q
    · rw [hq, Option.none_or] at h
      have hnone := (lookup_revDictOf_none name rest).mp hq
      by_cases hk : name = k.killer
      · simp only [List.lookup, hk, beq_self_eq_true, cond_true,
          Option.some_inj] at h
        rcases List.mem_cons.mp hj with rfl | hjr
        · omega
        · exact absurd hjk (hnone j hjr)
      · simp [List.lookup, beq_eq_false_iff_ne.mpr hk] at h
    · rw [hq] at h
      simp only [Option.or] at h
      have hpq : q = p := by simpa using h
      subst hpq
      obtain ⟨j', hj', _, hjf'⟩ := lookup_revDictOf_some name q rest hq
      rcases List.mem_cons.mp hj with rfl | hjr
      · calc j.frame ≤ j'.frame := hs.1 j' hj'
          _ = q := hjf'
      · exact ih hs.2 hq j hjr hjk

lemma tagOf_range (n i : ℕ) (k : RawKill) (d : List (String × ℕ)) (fps : ℚ) :
    tagOf n i k d fps = "first_blood" ∨ tagOf n i k d fps = "last_kill" ∨
      tagOf n i k d fps = "multi_kill" ∨ tagOf n i k d fps = "kill" := by
  unfold tagOf
  split
  · exact Or.inl rfl
  · split
    · exact Or.inr (Or.inl rfl)
    · rcases h : d.lookup k.killer with _ | prev
      · exact Or.inr (Or.inr (Or.inr rfl))
      · by_cases hlt : (k.frame : ℚ) - prev < fps * 3
        · exact Or.inr (Or.inr (Or.inl (by simp [h, hlt])))
        · exact Or.inr (Or.inr (Or.inr (by simp [h, hlt])))

lemma tagKillsAux_snd_range (n : ℕ) (fps : ℚ) :
    ∀ (l : List RawKill) (i0 : ℕ) (d : List (String × ℕ)),
      ∀ kt ∈ tagKillsAux n fps i0 d l,
        kt.2 = "first_blood" ∨ kt.2 = "last_kill" ∨
          kt.2 = "multi_kill" ∨ kt.2 = "kill" := by
  intro l
  induction l with
  | nil => simp [tagKillsAux]
  | cons k rest ih =>
    intro i0 d kt hkt
    rw [tagKillsAux, List.mem_cons] at hkt
    rcases hkt with rfl | hkt
    · exact tagOf_range n i0 k d fps
    · exact ih _ _ kt hkt

/-- **C5.**  With the confirmed kills sorted by frame, the first element is
tagged `first_blood`, the last element is tagged `last_kill`, an interior
kill whose killer previously scored within 3 seconds (`fps · 3` frames) is
tagged `multi_kill`, and all other interior kills are tagged plain `kill`;
only the three distinguished tags are materialized into the persisted
event list; a run with exactly one confirmed kill yields exactly one
`first_blood` event and no `last_kill` event. -/
theorem C5_sequencing (ks : List RawKill) (fps : ℚ) (trail : List TrailObj)
    (hs : List.Sorted (fun a b => a.frame ≤ b.frame) ks) :
    (killEvents ks trail fps = (tagKills ks fps).filterMap (materializeKill trail)) ∧
    (∀ l1 k l2, ks = l1 ++ k :: l2 →
      ∃ t : String, (tagKills ks fps)[l1.length]? = some (k, t) ∧
        (l1 = [] → t = "first_blood") ∧
        (l1 ≠ [] → l2 = [] → t = "last_kill") ∧
        (l1 ≠ [] → l2 ≠ [] →
          (t = "multi_kill" ∨ t = "kill") ∧
          (t = "multi_kill" ↔
            ∃ j ∈ l1, j.killer = k.killer ∧ (k.frame : ℚ) - (j.frame : ℚ) < fps * 3))) ∧
    (∀ e ∈ killEvents ks trail fps,
      e.type = "first_blood" ∨ e.type = "multi_kill" ∨ e.type = "last_kill") ∧
    (∀ kt ∈ tagKills ks fps, kt.2 ≠ "kill" →
      ∃ e ∈ killEvents ks trail fps,
        e.frame = kt.1.frame ∧ e.type = kt.2 ∧
        e.killer = kt.1.killer ∧ e.victim = kt.1.victim) ∧
    (∀ k : RawKill, (killEvents [k] trail fps).map Event.type = ["first_blood"]) := by
  have hms : ks.mergeSort (fun a b => a.frame ≤ b.frame) = ks :=
    List.mergeSort_of_sorted (hs.imp (fun h => by simpa using h))
  have hKE : killEvents ks trail fps = (tagKills ks fps).filterMap (materializeKill trail) := by
    rw [killEvents, hms]
  refine ⟨hKE, ?_, ?_, ?_, ?_⟩
  · -- positionwise tags
    intro l1 k l2 heq
    have h0 := tagKillsAux_append ks.length fps l1 (k :: l2) 0 []
    rw [Nat.zero_add, List.append_nil] at h0
    have happ : tagKills ks fps =
        tagKillsAux ks.length fps 0 [] l1 ++
          ((k, tagOf ks.length l1.length k (revDictOf l1) fps) ::
            tagKillsAux ks.length fps (l1.length + 1)
              ((k.killer, k.frame) :: revDictOf l1) l2) := by
      calc tagKills ks fps
          = tagKillsAux ks.length fps 0 [] (l1 ++ k :: l2) := by
            rw [tagKills]; exact congrArg (tagKillsAux ks.length fps 0 []) heq
        _ = _ := by rw [h0]; rfl
    have hlen : (tagKillsAux ks.length fps 0 [] l1).length = l1.length :=
      tagKillsAux_length ks.length fps l1 0 []
    refine ⟨tagOf ks.length l1.length k (revDictOf l1) fps, ?_, ?_, ?_, ?_⟩
    · rw [happ, List.getElem?_append_right (by omega)]
      simp [hlen]
    · rintro rfl
      simp [tagOf]
    · intro h1 h2
      subst h2
      have hi : l1.length ≠ 0 := fun hc => h1 (List.length_eq_zero.mp hc)
      have hn : ks.length = l1.length + 1 := by rw [heq]; simp
      rw [tagOf, if_neg hi, if_pos (by omega)]
    · intro h1 h2
      have hi : l1.length ≠ 0 := fun hc => h1 (List.length_eq_zero.mp hc)
      have hl2 : l2.length ≠ 0 := fun hc => h2 (List.length_eq_zero.mp hc)
      have hn : ks.length = l1.length + l2.length + 1 := by rw [heq]; simp; omega
      have hs1 : List.Sorted (fun a b => a.frame ≤ b.frame) l1 := by
        rw [heq] at hs
        exact (List.pairwise_append.mp hs).1
      rcases hl : (revDictOf l1).lookup k.killer with _ | prev
      · have htag : tagOf ks.length l1.length k (revDictOf l1) fps = "kill" := by
          rw [tagOf, if_neg hi, if_neg (by omega), hl]
        rw [htag]
        refine ⟨Or.inr rfl, ?_, ?_⟩
        · intro hc; exact absurd hc (by decide)
        · rintro ⟨j, hj, hjk, _⟩
          exact absurd hjk ((lookup_revDictOf_none k.killer l1).mp hl j hj)
      · by_cases hdlt : (k.frame : ℚ) - (prev : ℚ) < fps * 3
        · have htag : tagOf ks.length l1.length k (revDictOf l1) fps = "multi_kill" := by
            rw [tagOf, if_neg hi, if_neg (by omega), hl]
            simp [hdlt]
          rw [htag]
          refine ⟨Or.inl rfl, ?_, ?_⟩
          · intro _
            obtain ⟨j, hj, hjk, hjf⟩ := lookup_revDictOf_some k.killer prev l1 hl
            exact ⟨j, hj, hjk, by rw [hjf]; exact hdlt⟩
          · intro _; rfl
        · have htag : tagOf ks.length l1.length k (revDictOf l1) fps = "kill" := by
            rw [tagOf, if_neg hi, if_neg (by omega), hl]
            simp [hdlt]
          rw [htag]
          refine ⟨Or.inr rfl, ?_, ?_⟩
          · intro hc; exact absurd hc (by decide)
          · rintro ⟨j, hj, hjk, hjlt⟩
            have hge := lookup_revDictOf_ge k.killer prev l1 hs1 hl j hj hjk
            have : (j.frame : ℚ) ≤ (prev : ℚ) := by exact_mod_cast hge
            exact absurd (by linarith : (k.frame : ℚ) - (prev : ℚ) < fps * 3) hdlt
  · -- materialized events carry only the three distinguished tags
    intro e he
    rw [hKE] at he
    obtain ⟨kt, _, hmk⟩ := List.mem_filterMap.mp he
    rw [materializeKill] at hmk
    split at hmk
    · rename_i hcond
      obtain rfl : _ = e := Option.some_inj.mp hmk
      simpa using hcond
    · exact absurd hmk (by simp)
  · -- every non-plain tag is materialized
    intro kt hkt hne
    have hr := tagKillsAux_snd_range ks.length fps ks 0 [] kt hkt
    have hcond : kt.2 = "first_blood" ∨ kt.2 = "multi_kill" ∨ kt.2 = "last_kill" := by
      rcases hr with h | h | h | h
      · exact Or.inl h
      · exact Or.inr (Or.inr h)
      · exact Or.inr (Or.inl h)
      · exact absurd h hne
    refine ⟨{ frame := kt.1.frame, type := kt.2, killer := kt.1.killer,
              victim := kt.1.victim,
              k_pos := findAgentPos trail kt.1.frame kt.1.killer 90 true,
              v_pos := findAgentPos trail kt.1.frame kt.1.victim 90 true,
              type_detail := none, category := none }, ?_, rfl, rfl, rfl, rfl⟩
    rw [hKE]
    exact List.mem_filterMap.mpr ⟨kt, hkt, by rw [materializeKill, if_pos hcond]⟩
  · -- a single-kill run
    intro k
    have hms1 : [k].mergeSort (fun a b => a.frame ≤ b.frame) = [k] :=
      List.mergeSort_of_sorted (by simp)
    rw [killEvents, hms1]
    simp [tagKills, tagKillsAux, tagOf, materializeKill]

/-- Witness for C5: four sorted kills at frames 100/130/135/500 (killer
`"a"` scoring three times) receive tags `first_blood`, `multi_kill` (130 −
100 < 3 · 30), `multi_kill`, `last_kill`; a single-kill run materializes
exactly one `first_blood`. -/
theorem C5_sequencing_witness :
    (tagKills [⟨100, "a", "b"⟩, ⟨130, "a", "c"⟩, ⟨135, "a", "d"⟩, ⟨500, "e", "f"⟩] 30)[0]?
        = some (⟨100, "a", "b"⟩, "first_blood") ∧
    (tagKills [⟨100, "a", "b"⟩, ⟨130, "a", "c"⟩, ⟨135, "a", "d"⟩, ⟨500, "e", "f"⟩] 30)[1]?
        = some (⟨130, "a", "c"⟩, "multi_kill") ∧
    (tagKills [⟨100, "a", "b"⟩, ⟨130, "a", "c"⟩, ⟨135, "a", "d"⟩, ⟨500, "e", "f"⟩] 30)[3]?
        = some (⟨500, "e", "f"⟩, "last_kill") ∧
    (killEvents [⟨7, "x", "y"⟩] [] 30).map Event.type = ["first_blood"] := by
  have hsort : List.Sorted (fun a b : RawKill => a.frame ≤ b.frame)
      [⟨100, "a", "b"⟩, ⟨130, "a", "c"⟩, ⟨135, "a", "d"⟩, ⟨500, "e", "f"⟩] := by
    simp [List.sorted_cons]
  obtain ⟨hKE, hpos, htypes, hmat, hsingle⟩ := C5_sequencing _ 30 [] hsort
  refine ⟨?_, ?_, ?_, hsingle ⟨7, "x", "y"⟩⟩
  · obtain ⟨t, hget, hfb, _, _⟩ :=
      hpos [] ⟨100, "a", "b"⟩ [⟨130, "a", "c"⟩, ⟨135, "a", "d"⟩, ⟨500, "e", "f"⟩] rfl
    rw [hfb rfl] at hget
    exact hget
  · obtain ⟨t, hget, _, _, hint⟩ :=
      hpos [⟨100, "a", "b"⟩] ⟨130, "a", "c"⟩ [⟨135, "a", "d"⟩, ⟨500, "e", "f"⟩] rfl
    have h2 := hint (by simp) (by simp)
    have ht : t = "multi_kill" := h2.2.mpr ⟨⟨100, "a", "b"⟩, by simp, rfl, by norm_num⟩
    rw [ht] at hget
    exact hget
  · obtain ⟨t, hget, _, hlk, _⟩ :=
      hpos [⟨100, "a", "b"⟩, ⟨130, "a", "c"⟩, ⟨135, "a", "d"⟩] ⟨500, "e", "f"⟩ [] rfl
    rw [hlk (by simp) rfl] at hget
    exact hget

/-! ## Lemmas about the spike-plant one-shot state machine -/

/-- Number of spike-plant events in a list. -/
def spikeCount (es : List Event) : ℕ :=
  es.countP (fun e => decide (e.type = "spike_plant"))

lemma killStepPart_events_planted (W H i : ℕ) (fd : FrameData) (s1 : ScanState) :
    (killStepPart W H i fd s1).events = s1.events ∧
    (killStepPart W H i fd s1).planted = s1.planted := by
  rw [killStepPart]
  split
  · split <;> exact ⟨rfl, rfl⟩
  · exact ⟨rfl, rfl⟩

/-- Once the plant state is terminal, the spike branch never fires again. -/
lemma spikeStepPart_after_plant (W H i : ℕ) (fd : FrameData)
    (objs : List TrailObj) (s2 : ScanState) (h : s2.planted = true) :
    spikeStepPart W H i fd objs s2 = s2 := by
  rw [spikeStepPart, if_neg]
  simp [h]

/-- The spike branch either leaves the state unchanged or, from a
non-planted state, appends exactly one spike event and plants. -/
lemma spikeStepPart_shape (W H i : ℕ) (fd : FrameData)
    (objs : List TrailObj) (s2 : ScanState) :
    spikeStepPart W H i fd objs s2 = s2 ∨
      (s2.planted = false ∧ ∃ p : Pos,
        spikeStepPart W H i fd objs s2 =
          { s2 with events := s2.events ++ [mkSpikeEvent i p], planted := true }) := by
  rw [spikeStepPart]
  split
  · rename_i hcond
    have hpf : s2.planted = false := by
      rcases hcond with ⟨hnp, _⟩
      exact Bool.not_eq_true _ ▸ hnp
    split
    · split
      · split
        · exact Or.inr ⟨hpf, _, rfl⟩
        · exact Or.inl rfl
      · exact Or.inl rfl
    · exact Or.inl rfl
  · exact Or.inl rfl

lemma plantInv_frameStep (W H : ℕ) (fd : FrameData) (i : ℕ) (s : ScanState)
    (h1 : spikeCount s.events ≤ 1)
    (h0 : s.planted = false → spikeCount s.events = 0) :
    spikeCount (frameStep W H fd s i).events ≤ 1 ∧
      ((frameStep W H fd s i).planted = false →
        spikeCount (frameStep W H fd s i).events = 0) := by
  simp only [frameStep]
  obtain ⟨he, hp⟩ := killStepPart_events_planted W H i fd
    { s with trail := s.trail ++ (minimapSurvivors fd.minimapRaw).map (mkTrailObj i) }
  rcases spikeStepPart_shape W H i fd
      ((minimapSurvivors fd.minimapRaw).map (mkTrailObj i))
      (killStepPart W H i fd
        { s with trail := s.trail ++ (minimapSurvivors fd.minimapRaw).map (mkTrailObj i) })
    with hsh | ⟨hpf, p, hsh⟩ <;> rw [hsh]
  · exact ⟨by rwa [he], fun hf => by rw [he]; exact h0 (by rwa [hp] at hf)⟩
  · constructor
    · have h00 : spikeCount s.events = 0 := h0 (by rwa [hp] at hpf)
      rw [spikeCount, List.countP_append, he]
      rw [spikeCount] at h00
      simp [h00, mkSpikeEvent]
    · intro hf; simp at hf

lemma runScan_spikeCount (W H total : ℕ) (frames : ℕ → FrameData) :
    spikeCount (runScan W H total frames).events ≤ 1 := by
  rw [runScan]
  suffices h : ∀ (l : List ℕ) (s : ScanState), spikeCount s.events ≤ 1 →
      (s.planted = false → spikeCount s.events = 0) →
      spikeCount (l.foldl (fun s i => frameStep W H (frames i) s i) s).events ≤ 1 by
    exact h _ _ (by simp [spikeCount]) (fun _ => by simp [spikeCount])
  intro l
  induction l with
  | nil => intro s hl h0; simpa using hl
  | cons i rest ih =>
    intro s hl h0
    simp only [List.foldl_cons]
    obtain ⟨g1, g0⟩ := plantInv_frameStep W H (frames i) i s hl h0
    exact ih _ g1 g0

/-- Every event materialized by the sequencer carries one of the three
distinguished kill tags. -/
lemma killEvents_type_mem (ks : List RawKill) (trail : List TrailObj) (fps : ℚ) :
    ∀ e ∈ killEvents ks trail fps,
      e.type = "first_blood" ∨ e.type = "multi_kill" ∨ e.type = "last_kill" := by
  intro e he
  simp only [killEvents] at he
  obtain ⟨kt, _, hmk⟩ := List.mem_filterMap.mp he
  rw [materializeKill] at hmk
  split at hmk
  · rename_i hcond
    obtain rfl : _ = e := Option.some_inj.mp hmk
    simpa using hcond
  · exact absurd hmk (by simp)

/-- The focal-point attributor either leaves the accumulator unchanged or
appends one focal-point event that passed the 10-frame `type_detail`
deduplication check against everything already accepted. -/
lemma focalStep_shape (abilities : List TrailObj) (fps : ℚ) (acc : List Event)
    (ev : Event) :
    focalStep abilities fps acc ev = acc ∨
      ∃ ab : TrailObj, focalStep abilities fps acc ev = acc ++ [mkFocalEvent ab] ∧
        ∀ fe ∈ acc, ¬(fe.type_detail = some ab.cls ∧
          |(fe.frame : ℤ) - (ab.frame : ℤ)| < 10) := by
  rw [focalStep]
  split
  · exact Or.inl rfl
  · split
    · exact Or.inl rfl
    · split
      · exact Or.inl rfl
      · split
        · exact Or.inl rfl
        · rename_i hany
          refine Or.inr ⟨_, rfl, ?_⟩
          intro fe hfe hcon
          apply hany
          rw [List.any_eq_true]
          exact ⟨fe, hfe, by simp [hcon.1, hcon.2]⟩

lemma analyzeFocalPoints_types (events : List Event) (trail : List TrailObj)
    (fps : ℚ) :
    ∀ e ∈ analyzeFocalPoints events trail fps, e.type = "focal_point" := by
  simp only [analyzeFocalPoints]
  suffices h : ∀ (l : List Event) (acc : List Event),
      (∀ e ∈ acc, e.type = "focal_point") →
      ∀ e ∈ l.foldl (focalStep (trail.filter (fun t => isTactical t.cls)) fps) acc,
        e.type = "focal_point" by
    exact h events [] (by simp)
  intro l
  induction l with
  | nil => intro acc hacc; simpa using hacc
  | cons ev rest ih =>
    intro acc hacc
    simp only [List.foldl_cons]
    apply ih
    intro e he
    rcases focalStep_shape (trail.filter (fun t => isTactical t.cls)) fps acc ev
      with hsh | ⟨ab, hsh, _⟩
    · rw [hsh] at he; exact hacc e he
    · rw [hsh] at he
      rcases List.mem_append.mp he with h | h
      · exact hacc e h
      · rw [List.mem_singleton.mp h]; rfl

/-- **C4.**  Across one full extraction run the persisted events list
contains at most one `spike_plant` event: the plant detector is a one-shot
state machine and once planted the state is terminal (the spike branch
never modifies the state again). -/
theorem C4_single_plant (W H total : ℕ) (frames : ℕ → FrameData) (fps : ℚ) :
    (∀ (fd : FrameData) (objs : List TrailObj) (i : ℕ) (s : ScanState),
        s.planted = true → spikeStepPart W H i fd objs s = s) ∧
    (runAnalysis W H total frames fps).1.countP
        (fun e => e.type = "spike_plant") ≤ 1 := by
  refine ⟨fun fd objs i s h => spikeStepPart_after_plant W H i fd objs s h, ?_⟩
  simp only [runAnalysis]
  rw [List.Perm.countP_eq _ (List.mergeSort_perm _ _)]
  rw [List.countP_append, List.countP_append]
  have hscan := runScan_spikeCount W H total frames
  rw [spikeCount] at hscan
  have hkill : (killEvents (stabilizeKillsTuned (runScan W H total frames).rawKills fps)
      (classifySmokes fps (runScan W H total frames).trail) fps).countP
        (fun e => decide (e.type = "spike_plant")) = 0 := by
    rw [List.countP_eq_zero]
    intro e he
    rcases killEvents_type_mem _ _ _ e he with h | h | h <;> simp [h]
  have hfocal : (analyzeFocalPoints
      ((runScan W H total frames).events ++
        killEvents (stabilizeKillsTuned (runScan W H total frames).rawKills fps)
          (classifySmokes fps (runScan W H total frames).trail) fps)
      (classifySmokes fps (runScan W H total frames).trail) fps).countP
        (fun e => decide (e.type = "spike_plant")) = 0 := by
    rw [List.countP_eq_zero]
    intro e he
    have := analyzeFocalPoints_types _ _ _ e he
    simp [this]
  omega

/-- Separation of two focal events: identical `type_detail` forces a frame
gap of at least 10. -/
def focalSep (e1 e2 : Event) : Prop :=
  e1.type_detail = e2.type_detail → 10 ≤ |(e1.frame : ℤ) - (e2.frame : ℤ)|

lemma analyzeFocalPoints_pairwise (events : List Event) (trail : List TrailObj)
    (fps : ℚ) :
    (analyzeFocalPoints events trail fps).Pairwise focalSep := by
  simp only [analyzeFocalPoints]
  suffices h : ∀ (l acc : List Event), acc.Pairwise focalSep →
      (l.foldl (focalStep (trail.filter fun t => isTactical t.cls) fps) acc).Pairwise
        focalSep by
    exact h events [] (by simp)
  intro l
  induction l with
  | nil => intro acc hacc; simpa using hacc
  | cons ev rest ih =>
    intro acc hacc
    simp only [List.foldl_cons]
    apply ih
    rcases focalStep_shape (trail.filter fun t => isTactical t.cls) fps acc ev
      with hsh | ⟨ab, hsh, hsep⟩ <;> rw [hsh]
    · exact hacc
    · rw [List.pairwise_append]
      refine ⟨hacc, List.pairwise_singleton _ _, ?_⟩
      intro fe hfe e' he'
      rw [List.mem_singleton.mp he']
      intro hdet
      have h2 : ¬(|(fe.frame : ℤ) - (ab.frame : ℤ)| < 10) :=
        fun hc => hsep fe hfe ⟨hdet, hc⟩
      exact not_lt.mp h2

/-- Every event appended during the frame scan is a spike-plant event. -/
lemma runScan_events_spike (W H total : ℕ) (frames : ℕ → FrameData) :
    ∀ e ∈ (runScan W H total frames).events, e.type = "spike_plant" := by
  rw [runScan]
  suffices h : ∀ (l : List ℕ) (s : ScanState),
      (∀ e ∈ s.events, e.type = "spike_plant") →
      ∀ e ∈ (l.foldl (fun s i => frameStep W H (frames i) s i) s).events,
        e.type = "spike_plant" by
    exact h _ _ (by simp)
  intro l
  induction l with
  | nil => intro s hs; simpa using hs
  | cons i rest ih =>
    intro s hs
    simp only [List.foldl_cons]
    apply ih
    simp only [frameStep]
    obtain ⟨he, _⟩ := killStepPart_events_planted W H i (frames i)
      { s with trail := s.trail ++ (minimapSurvivors (frames i).minimapRaw).map (mkTrailObj i) }
    rcases spikeStepPart_shape W H i (frames i)
        ((minimapSurvivors (frames i).minimapRaw).map (mkTrailObj i))
        (killStepPart W H i (frames i)
          { s with trail := s.trail ++ (minimapSurvivors (frames i).minimapRaw).map (mkTrailObj i) })
      with hsh | ⟨_, p, hsh⟩ <;> rw [hsh]
    · intro e hee
      rw [he] at hee
      exact hs e hee
    · intro e hee
      rcases List.mem_append.mp hee with hee | hee
      · rw [he] at hee; exact hs e hee
      · rw [List.mem_singleton.mp hee]; rfl

/-! ## Lemmas about detection ingest -/

lemma killStepPart_trail (W H i : ℕ) (fd : FrameData) (s1 : ScanState) :
    (killStepPart W H i fd s1).trail = s1.trail := by
  rw [killStepPart]
  split
  · split <;> rfl
  · rfl

lemma spikeStepPart_trail (W H i : ℕ) (fd : FrameData) (objs : List TrailObj)
    (s2 : ScanState) :
    (spikeStepPart W H i fd objs s2).trail = s2.trail := by
  rw [spikeStepPart]
  split
  · split
    · split
      · split <;> rfl
      · rfl
    · rfl
  · rfl

/-- Membership in the per-frame minimap survivors implies membership in
the raw candidates together with the label-threshold and size gates. -/
lemma minimapSurvivors_mem (cands : List RawDet) (d : RawDet)
    (h : d ∈ minimapSurvivors cands) :
    d ∈ cands ∧ labelThreshold d.cls ≤ d.conf ∧ 5 ≤ d.w ∧ 5 ≤ d.h := by
  rw [minimapSurvivors] at h
  obtain ⟨h1, h2⟩ := List.mem_filter.mp h
  obtain ⟨h3, _⟩ := List.mem_filter.mp h1
  simp only [Bool.and_eq_true, decide_eq_true_eq] at h2
  exact ⟨h3, h2.1.1, h2.1.2, h2.2⟩

/-- Every trail record of the full scan comes from a raw minimap candidate
that passed its per-label confidence threshold and the 5×5 size floor. -/
lemma runScan_trail_mem (W H total : ℕ) (frames : ℕ → FrameData) :
    ∀ obj ∈ (runScan W H total frames).trail,
      ∃ i < total, ∃ d ∈ (frames i).minimapRaw,
        labelThreshold d.cls ≤ d.conf ∧ 5 ≤ d.w ∧ 5 ≤ d.h ∧
        obj = mkTrailObj i d := by
  rw [runScan]
  suffices h : ∀ (l : List ℕ), (∀ i ∈ l, i < total) → ∀ (s : ScanState),
      (∀ obj ∈ s.trail, ∃ i < total, ∃ d ∈ (frames i).minimapRaw,
        labelThreshold d.cls ≤ d.conf ∧ 5 ≤ d.w ∧ 5 ≤ d.h ∧ obj = mkTrailObj i d) →
      ∀ obj ∈ (l.foldl (fun s i => frameStep W H (frames i) s i) s).trail,
        ∃ i < total, ∃ d ∈ (frames i).minimapRaw,
          labelThreshold d.cls ≤ d.conf ∧ 5 ≤ d.w ∧ 5 ≤ d.h ∧ obj = mkTrailObj i d by
    exact h _ (fun i hi => List.mem_range.mp hi) _ (by simp)
  intro l
  induction l with
  | nil => intro _ s hs; simpa using hs
  | cons i rest ih =>
    intro hlt s hs
    simp only [List.foldl_cons]
    refine ih (fun j hj => hlt j (by simp [hj])) _ ?_
    intro obj hobj
    simp only [frameStep] at hobj
    rw [spikeStepPart_trail, killStepPart_trail] at hobj
    rcases List.mem_append.mp hobj with hobj | hobj
    · exact hs obj hobj
    · obtain ⟨d, hd, rfl⟩ := List.mem_map.mp hobj
      obtain ⟨hdc, hth, hw, hh⟩ := minimapSurvivors_mem _ _ hd
      exact ⟨i, hlt i (by simp), d, hdc, hth, hw, hh, rfl⟩

/-- **C9.**  In the persisted events list no two `focal_point` events share
the same `type_detail` with frames within 10 of each other: every accepted
attribution of a given ability type lies at least 10 frames from any other
persisted focal point of that type. -/
theorem C9_focal_nondup (W H total : ℕ) (frames : ℕ → FrameData) (fps : ℚ) :
    (runAnalysis W H total frames fps).1.Pairwise
      (fun e1 e2 => e1.type = "focal_point" → e2.type = "focal_point" →
        e1.type_detail = e2.type_detail → 10 ≤ |(e1.frame : ℤ) - (e2.frame : ℤ)|) := by
  have hsymm : ∀ {x y : Event},
      (x.type = "focal_point" → y.type = "focal_point" →
        x.type_detail = y.type_detail → 10 ≤ |(x.frame : ℤ) - (y.frame : ℤ)|) →
      (y.type = "focal_point" → x.type = "focal_point" →
        y.type_detail = x.type_detail → 10 ≤ |(y.frame : ℤ) - (x.frame : ℤ)|) := by
    intro x y hxy h1 h2 hdet
    rw [abs_sub_comm]
    exact hxy h2 h1 hdet.symm
  simp only [runAnalysis]
  rw [List.Perm.pairwise_iff hsymm (List.mergeSort_perm _ _)]
  rw [List.pairwise_append]
  have hnf : ∀ e ∈ (runScan W H total frames).events ++
      killEvents (stabilizeKillsTuned (runScan W H total frames).rawKills fps)
        (classifySmokes fps (runScan W H total frames).trail) fps,
      e.type ≠ "focal_point" := by
    intro e he
    rcases List.mem_append.mp he with he | he
    · rw [runScan_events_spike W H total frames e he]; decide
    · rcases killEvents_type_mem _ _ _ e he with h | h | h <;> rw [h] <;> decide
  refine ⟨?_, ?_, ?_⟩
  · exact List.pairwise_of_forall_mem_list
      (fun a ha b _ h1 => absurd h1 (hnf a ha))
  · exact (analyzeFocalPoints_pairwise _ _ _).imp
      (fun h _ _ hdet => h hdet)
  · intro a ha b _ h1
    exact absurd h1 (hnf a ha)

/-- **C6 (counterexample).**  The claim that no detection with confidence
below its *label's* threshold (0.08 / 0.25) appears in the raw per-region
batches is false for the kill-log region: the kill feed is gated at the
uniform region floor `0.20`, so an agent-label detection at confidence
`0.22 < 0.25` does appear in the kill batch. -/
theorem C6_threshold_gating_counterexample :
    (⟨"jett_e", 0, 22/100⟩ : KillPred) ∈ killPreds [⟨"jett_e", 0, 0, 10, 10, 22/100⟩] ∧
    (22/100 : ℚ) < labelThreshold "jett_e" := by
  constructor
  · rw [killPreds, predictFloor]
    rw [List.filter_cons, if_pos (by norm_num)]
    simp
  · rw [labelThreshold, if_neg (by decide)]
    norm_num

/-- **C6 (amended).**  Every detection surviving into the Trail passed its
label's threshold (0.08 for the low-signal allow-list, 0.25 otherwise) and
the 5×5 pixel floor — sub-threshold or undersized detections never appear
in the Trail and are dropped silently; the raw per-region batches are
gated at their uniform region floors instead: `0.20` for the kill log and
`0.50` for the plant UI (label thresholds do not apply there). -/
theorem C6_threshold_gating (W H total : ℕ) (frames : ℕ → FrameData) :
    (∀ obj ∈ (runScan W H total frames).trail,
      ∃ i < total, ∃ d ∈ (frames i).minimapRaw,
        labelThreshold d.cls ≤ d.conf ∧ 5 ≤ d.w ∧ 5 ≤ d.h ∧
        obj = mkTrailObj i d) ∧
    (∀ (cands : List RawDet), ∀ p ∈ killPreds cands, (20/100 : ℚ) ≤ p.confidence) ∧
    (∀ (cands : List RawDet), ∀ d ∈ spikeBatch cands, (50/100 : ℚ) ≤ d.conf) := by
  refine ⟨runScan_trail_mem W H total frames, ?_, ?_⟩
  · intro cands p hp
    rw [killPreds] at hp
    obtain ⟨d, hd, rfl⟩ := List.mem_map.mp hp
    obtain ⟨_, hconf⟩ := List.mem_filter.mp hd
    rw [decide_eq_true_eq] at hconf
    calc (20/100 : ℚ) = 0.20 := by norm_num
      _ ≤ d.conf := hconf
  · intro cands d hd
    obtain ⟨_, hconf⟩ := List.mem_filter.mp hd
    rw [decide_eq_true_eq] at hconf
    calc (50/100 : ℚ) = 0.50 := by norm_num
      _ ≤ d.conf := hconf

/-- Witness for C6: a one-frame run whose sole minimap candidate is an
agent detection at confidence 0.9 with a 10×10 box puts it in the trail
and the theorem recovers its gating facts; batch members at confidences
0.6 / 0.8 satisfy the region floors. -/
theorem C6_threshold_gating_witness :
    (∃ i < 1, ∃ d ∈ [(⟨"jett_e", 40, 40, 10, 10, 9/10⟩ : RawDet)],
        labelThreshold d.cls ≤ d.conf ∧ 5 ≤ d.w ∧ 5 ≤ d.h ∧
        mkTrailObj 0 ⟨"jett_e", 40, 40, 10, 10, 9/10⟩ = mkTrailObj i d) ∧
    (20/100 : ℚ) ≤ (⟨"sage_f", 7, 6/10⟩ : KillPred).confidence ∧
    (50/100 : ℚ) ≤ (⟨"ui_spike_plant", 0, 0, 10, 10, 8/10⟩ : RawDet).conf := by
  have hms : minimapSurvivors [⟨"jett_e", 40, 40, 10, 10, 9/10⟩]
      = [⟨"jett_e", 40, 40, 10, 10, 9/10⟩] := by
    rw [minimapSurvivors, predictFloor]
    rw [List.filter_cons, if_pos (by norm_num)]
    rw [List.filter_nil, List.filter_cons, if_pos ?_, List.filter_nil]
    simp only [Bool.and_eq_true, decide_eq_true_eq]
    refine ⟨⟨?_, by norm_num⟩, by norm_num⟩
    rw [labelThreshold, if_neg (by decide)]
    norm_num
  refine ⟨?_, ?_, ?_⟩
  · apply (C6_threshold_gating 1920 1080 1
      (fun _ => ⟨[⟨"jett_e", 40, 40, 10, 10, 9/10⟩], [], []⟩)).1
    show mkTrailObj 0 _ ∈ (runScan 1920 1080 1 _).trail
    rw [runScan]
    rw [show List.range 1 = [0] from rfl]
    simp only [List.foldl_cons, List.foldl_nil, frameStep]
    rw [spikeStepPart_trail, killStepPart_trail]
    rw [hms]
    simp
  · apply (C6_threshold_gating 1920 1080 1
      (fun _ => ⟨[⟨"jett_e", 40, 40, 10, 10, 9/10⟩], [], []⟩)).2.1
      [⟨"sage_f", 7, 7, 10, 10, 6/10⟩]
    rw [killPreds, predictFloor, List.filter_cons, if_pos (by norm_num)]
    simp
  · apply (C6_threshold_gating 1920 1080 1
      (fun _ => ⟨[⟨"jett_e", 40, 40, 10, 10, 9/10⟩], [], []⟩)).2.2
      [⟨"ui_spike_plant", 0, 0, 10, 10, 8/10⟩]
    rw [spikeBatch, predictFloor, List.filter_cons, if_pos (by norm_num)]
    simp

/-- Witness for C4: a planted state is a fixed point of the spike branch,
and a zero-frame run persists no spike event. -/
theorem C4_single_plant_witness :
    spikeStepPart 1920 1080 0 ⟨[], [], []⟩ [] ⟨[], [], [], true⟩ = ⟨[], [], [], true⟩ ∧
    (runAnalysis 1920 1080 0 (fun _ => ⟨[], [], []⟩) 1).1.countP
        (fun e => e.type = "spike_plant") ≤ 1 :=
  ⟨(C4_single_plant 1920 1080 0 (fun _ => ⟨[], [], []⟩) 1).1 ⟨[], [], []⟩ [] 0
      ⟨[], [], [], true⟩ rfl,
   (C4_single_plant 1920 1080 0 (fun _ => ⟨[], [], []⟩) 1).2⟩

/-! ## Lemmas about position lookup failure -/

lemma killEvents_strip_trail_indep (l : List (RawKill × String))
    (trail1 trail2 : List TrailObj) :
    (l.filterMap (materializeKill trail1)).map
        (fun e => (e.frame, e.type, e.killer, e.victim)) =
      (l.filterMap (materializeKill trail2)).map
        (fun e => (e.frame, e.type, e.killer, e.victim)) := by
  induction l with
  | nil => rfl
  | cons kt rest ih =>
    rw [List.filterMap_cons, List.filterMap_cons, materializeKill, materializeKill]
    by_cases h : kt.2 = "first_blood" ∨ kt.2 = "multi_kill" ∨ kt.2 = "last_kill"
    · rw [if_pos h, if_pos h]
      simpa using ih
    · rw [if_neg h, if_neg h]
      exact ih

/-- **C10.**  For every persisted kill-class event, when the killer's
(resp. victim's) label has no trail detection in the 90-frame lookback
window `[frame − 89, frame]` the event's `k_pos` (resp. `v_pos`) is
`none`: the positions are exactly the backward `_find_agent_pos` lookups,
events are persisted regardless of whether the lookups succeed, and the
focal-point attributor silently skips an event whose two positions are
both `none`, so it never receives a focal-point cause. -/
theorem C10_missing_positions (trail : List TrailObj) (frame : ℕ)
    (name : String) (ks : List RawKill) (fps : ℚ) :
    ((∀ t ∈ trail, t.cls = name → ¬(frame - 89 ≤ t.frame ∧ t.frame ≤ frame)) →
      findAgentPos trail frame name 90 true = none) ∧
    (∀ e ∈ killEvents ks trail fps,
      e.k_pos = findAgentPos trail e.frame e.killer 90 true ∧
      e.v_pos = findAgentPos trail e.frame e.victim 90 true) ∧
    (∀ trail2 : List TrailObj,
      (killEvents ks trail fps).map (fun e => (e.frame, e.type, e.killer, e.victim)) =
        (killEvents ks trail2 fps).map (fun e => (e.frame, e.type, e.killer, e.victim))) ∧
    (∀ (abilities : List TrailObj) (acc : List Event) (ev : Event),
      ev.k_pos = none → ev.v_pos = none → focalStep abilities fps acc ev = acc) := by
  refine ⟨?_, ?_, ?_, ?_⟩
  · intro h
    rw [findAgentPos]
    have hfil : trail.filter (agentPosCand frame name 90 true) = [] := by
      rw [List.filter_eq_nil_iff]
      intro t ht hc
      rw [agentPosCand] at hc
      simp at hc
      obtain ⟨⟨h1, h2⟩, h3⟩ := hc
      exact h t ht h3 ⟨by omega, h1⟩
    rw [hfil]
    rfl
  · intro e he
    simp only [killEvents] at he
    obtain ⟨kt, _, hmk⟩ := List.mem_filterMap.mp he
    rw [materializeKill] at hmk
    split at hmk
    · obtain rfl : _ = e := Option.some_inj.mp hmk
      exact ⟨rfl, rfl⟩
    · exact absurd hmk (by simp)
  · intro trail2
    simp only [killEvents]
    exact killEvents_strip_trail_indep _ trail trail2
  · intro abilities acc ev hk hv
    rw [focalStep]
    split
    · rfl
    · rw [hk, hv]
      rfl

/-- Witness for C10: an empty trail yields no position, the single kill
event of a one-kill run is persisted with both positions `none`, and the
attributor leaves the accumulator unchanged on it. -/
theorem C10_missing_positions_witness :
    findAgentPos [] 100 "jett_e" 90 true = none ∧
    ((⟨100, "first_blood", "a", "b", none, none, none, none⟩ : Event).k_pos
        = findAgentPos [] 100 "a" 90 true ∧
     (⟨100, "first_blood", "a", "b", none, none, none, none⟩ : Event).v_pos
        = findAgentPos [] 100 "b" 90 true) ∧
    focalStep [] 30 []
        ⟨100, "first_blood", "a", "b", none, none, none, none⟩ = [] := by
  have hmem : (⟨100, "first_blood", "a", "b", none, none, none, none⟩ : Event)
      ∈ killEvents [⟨100, "a", "b"⟩] [] 30 := by
    have hms1 : [(⟨100, "a", "b"⟩ : RawKill)].mergeSort
        (fun a b => a.frame ≤ b.frame) = [⟨100, "a", "b"⟩] :=
      List.mergeSort_of_sorted (by simp)
    rw [killEvents, hms1]
    simp [tagKills, tagKillsAux, tagOf, materializeKill, findAgentPos,
      argminAbsFrame]
  refine ⟨?_, ?_, ?_⟩
  · exact (C10_missing_positions [] 100 "jett_e" [⟨100, "a", "b"⟩] 30).1 (by simp)
  · exact (C10_missing_positions [] 100 "jett_e" [⟨100, "a", "b"⟩] 30).2.1 _ hmem
  · exact (C10_missing_positions [] 100 "jett_e" [⟨100, "a", "b"⟩] 30).2.2.2
      [] [] _ rfl rfl

/-! ## Lemmas about the kill-pair resolver -/

/-- Validity of a candidate pair (lines 349–350): not the same detection
and not the same trailing faction marker. -/
def validPair (kv : KillPred × KillPred) : Prop :=
  kv.1 ≠ kv.2 ∧ lastChar kv.1.cls ≠ lastChar kv.2.cls

instance (kv : KillPred × KillPred) : Decidable (validPair kv) := by
  rw [validPair]; infer_instance

/-- The first strict maximum of `pairScore` among valid pairs beating the
running score `s` — the reference semantics of the `score > best_score`
scan. -/
def firstPairAbove (s : ℚ) : List (KillPred × KillPred) → Option (KillPred × KillPred)
  | [] => none
  | kv :: l =>
    if validPair kv ∧ s < pairScore kv then
      match firstPairAbove (pairScore kv) l with
      | some b => some b
      | none => some kv
    else firstPairAbove s l

/-- The double loop of lines 347–354 computes exactly the first strict
maximum above the initial score. -/
lemma foldl_killPairStep_eq (l : List (KillPred × KillPred)) :
    ∀ (b : Option (String × String)) (s : ℚ),
      l.foldl killPairStep (b, s) =
        match firstPairAbove s l with
        | some kv => (some (kv.1.cls, kv.2.cls), pairScore kv)
        | none => (b, s) := by
  induction l with
  | nil => intro b s; rfl
  | cons kv rest ih =>
    intro b s
    rw [List.foldl_cons]
    by_cases h1 : kv.1 = kv.2
    · have hstep : killPairStep (b, s) kv = (b, s) := by rw [killPairStep, if_pos h1]
      rw [hstep, ih, firstPairAbove, if_neg (by simp [validPair, h1])]
    · by_cases h2 : lastChar kv.1.cls = lastChar kv.2.cls
      · have hstep : killPairStep (b, s) kv = (b, s) := by
          rw [killPairStep, if_neg h1, if_pos h2]
        rw [hstep, ih, firstPairAbove, if_neg (by simp [validPair, h2])]
      · by_cases h3 : s < pairScore kv
        · have hstep : killPairStep (b, s) kv =
              (some (kv.1.cls, kv.2.cls), pairScore kv) := by
            rw [killPairStep, if_neg h1, if_neg h2, if_pos h3]
          rw [hstep, ih, firstPairAbove, if_pos ⟨⟨h1, h2⟩, h3⟩]
          cases firstPairAbove (pairScore kv) rest <;> rfl
        · have hstep : killPairStep (b, s) kv = (b, s) := by
            rw [killPairStep, if_neg h1, if_neg h2, if_neg h3]
          rw [hstep, ih, firstPairAbove, if_neg (fun hc => h3 hc.2)]

lemma firstPairAbove_eq_none (s : ℚ) :
    ∀ l : List (KillPred × KillPred),
      (firstPairAbove s l = none ↔ ∀ kv ∈ l, validPair kv → pairScore kv ≤ s) := by
  intro l
  induction l with
  | nil => simp [firstPairAbove]
  | cons kv rest ih =>
    rw [firstPairAbove]
    by_cases h : validPair kv ∧ s < pairScore kv
    · rw [if_pos h]
      constructor
      · intro hc
        cases hx : firstPairAbove (pairScore kv) rest <;> rw [hx] at hc <;> simp at hc
      · intro hall
        exact absurd (hall kv (by simp) h.1) (not_le.mpr h.2)
    · rw [if_neg h, ih]
      constructor
      · intro hall kv' hkv' hv
        rcases List.mem_cons.mp hkv' with rfl | hm
        · exact not_lt.mp (fun hlt => h ⟨hv, hlt⟩)
        · exact hall kv' hm hv
      · intro hall kv' hm hv
        exact hall kv' (by simp [hm]) hv

lemma firstPairAbove_spec (l : List (KillPred × KillPred)) :
    ∀ (s : ℚ) (kv : KillPred × KillPred), firstPairAbove s l = some kv →
      validPair kv ∧ s < pairScore kv ∧
      (∀ x ∈ l, validPair x → pairScore x ≤ pairScore kv) ∧
      ∃ l1 l2, l = l1 ++ kv :: l2 ∧
        ∀ x ∈ l1, validPair x → pairScore x < pairScore kv := by
  induction l with
  | nil => intro s kv h; simp [firstPairAbove] at h
  | cons hd rest ih =>
    intro s kv h
    rw [firstPairAbove] at h
    by_cases hc : validPair hd ∧ s < pairScore hd
    · rw [if_pos hc] at h
      cases hx : firstPairAbove (pairScore hd) rest
      · rw [hx] at h
        obtain rfl : hd = kv := by simpa using h
        refine ⟨hc.1, hc.2, ?_, [], rest, rfl, by simp⟩
        intro x hx' hv
        rcases List.mem_cons.mp hx' with rfl | hm
        · exact le_refl _
        · exact (firstPairAbove_eq_none _ _).mp hx x hm hv
      · rename_i b
        rw [hx] at h
        obtain rfl : b = kv := by simpa using h
        obtain ⟨hv, hlt, hmax, l1, l2, heq, hfirst⟩ := ih _ _ hx
        refine ⟨hv, lt_trans hc.2 hlt, ?_, hd :: l1, l2, by rw [heq, List.cons_append], ?_⟩
        · intro x hx' hvx
          rcases List.mem_cons.mp hx' with rfl | hm
          · exact le_of_lt hlt
          · exact hmax x hm hvx
        · intro x hx' hvx
          rcases List.mem_cons.mp hx' with rfl | hm
          · exact hlt
          · exact hfirst x hm hvx
    · rw [if_neg hc] at h
      obtain ⟨hv, hlt, hmax, l1, l2, heq, hfirst⟩ := ih _ _ h
      have hhd : validPair hd → pairScore hd ≤ s :=
        fun hvh => not_lt.mp (fun hl => hc ⟨hvh, hl⟩)
      refine ⟨hv, hlt, ?_, hd :: l1, l2, by rw [heq, List.cons_append], ?_⟩
      · intro x hx' hvx
        rcases List.mem_cons.mp hx' with rfl | hm
        · exact le_trans (hhd hvx) (le_of_lt hlt)
        · exact hmax x hm hvx
      · intro x hx' hvx
        rcases List.mem_cons.mp hx' with rfl | hm
        · exact lt_of_le_of_lt (hhd hvx) hlt
        · exact hfirst x hm hvx

lemma sortByX_perm (preds : List KillPred) : (sortByX preds).Perm preds :=
  List.mergeSort_perm preds _

lemma sortByX_sorted (preds : List KillPred) :
    (sortByX preds).Pairwise (fun a b => a.x ≤ b.x) := by
  have h := @List.sorted_mergeSort KillPred
    (fun a b : KillPred => decide (a.x ≤ b.x))
    (fun a b c hab hbc => by
      simp only [decide_eq_true_eq] at *
      omega)
    (fun a b => by simp [le_total]) preds
  exact h.imp (fun hab => by simpa using hab)

lemma sortByX_head_le (preds : List KillPred) (p0 : KillPred)
    (h : (sortByX preds).head? = some p0) : ∀ p ∈ preds, p0.x ≤ p.x := by
  intro p hp
  have hp' : p ∈ sortByX preds := (sortByX_perm preds).mem_iff.mpr hp
  rcases hl : sortByX preds with _ | ⟨a, rest⟩
  · rw [hl] at h; simp at h
  · rw [hl] at h hp'
    obtain rfl : a = p0 := by simpa using h
    have hs := sortByX_sorted preds
    rw [hl] at hs
    rcases List.mem_cons.mp hp' with rfl | hm
    · exact le_refl _
    · exact (List.pairwise_cons.mp hs).1 p hm

lemma sortByX_getLast_ge (preds : List KillPred) (pl : KillPred)
    (h : (sortByX preds).getLast? = some pl) : ∀ p ∈ preds, p.x ≤ pl.x := by
  have key : ∀ (l : List KillPred), l.Pairwise (fun a b => a.x ≤ b.x) →
      ∀ q, l.getLast? = some q → ∀ p ∈ l, p.x ≤ q.x := by
    intro l
    induction l with
    | nil => intro _ q hq; simp at hq
    | cons a rest ih =>
      intro hp q hq p hpm
      cases rest with
      | nil =>
        obtain rfl : a = q := by simpa using hq
        rcases List.mem_cons.mp hpm with rfl | hm
        · exact le_refl _
        · simp at hm
      | cons b rest2 =>
        rw [List.getLast?_cons_cons] at hq
        rcases List.mem_cons.mp hpm with rfl | hm
        · exact (List.pairwise_cons.mp hp).1 q (List.mem_of_mem_getLast? hq)
        · exact ih (List.pairwise_cons.mp hp).2 q hq p hm
  exact fun p hp =>
    key _ (sortByX_sorted preds) pl h p ((sortByX_perm preds).mem_iff.mpr hp)

lemma killerCands_mem (preds : List KillPred) (p0 : KillPred)
    (h : (sortByX preds).head? = some p0) (p : KillPred) :
    p ∈ killerCands preds ↔ p ∈ preds ∧ p.x < p0.x + 40 := by
  rw [killerCands, h]
  rw [List.mem_filter, (sortByX_perm preds).mem_iff]
  simp

lemma victimCands_mem (preds : List KillPred) (pl : KillPred)
    (h : (sortByX preds).getLast? = some pl) (p : KillPred) :
    p ∈ victimCands preds ↔ p ∈ preds ∧ pl.x - 40 < p.x := by
  rw [victimCands, h]
  rw [List.mem_filter, (sortByX_perm preds).mem_iff]
  simp

/-- **C7.**  For the detections of one kill-log frame the resolver returns
no pair when there are fewer than two detections or the spread between the
extreme x positions is under 50px; otherwise, among killer candidates
within 40px of the minimum x and victim candidates within 40px of the
maximum x, it excludes pairs with the same trailing faction marker and
returns the cross-faction pair maximizing summed confidence, the first
maximum encountered in the stable x-sorted iteration order winning ties.
(The confidence hypothesis reflects the detector's `[0, 1]` contract and
rules out the `-999` sentinel.) -/
theorem C7_kill_pair_resolver (preds : List KillPred)
    (hconf : ∀ p ∈ preds, 0 ≤ p.confidence) :
    (preds.length < 2 → findBestKillPairStrict preds = none) ∧
    (∀ p0 pl, (sortByX preds).head? = some p0 → (sortByX preds).getLast? = some pl →
      (∀ p ∈ preds, p0.x ≤ p.x ∧ p.x ≤ pl.x) ∧
      (∀ p, p ∈ killerCands preds ↔ p ∈ preds ∧ p.x < p0.x + 40) ∧
      (∀ p, p ∈ victimCands preds ↔ p ∈ preds ∧ pl.x - 40 < p.x) ∧
      (¬ preds.length < 2 → pl.x - p0.x < 50 →
        findBestKillPairStrict preds = none) ∧
      (¬ preds.length < 2 → ¬ pl.x - p0.x < 50 →
        ((findBestKillPairStrict preds = none ↔
            ∀ kv ∈ (killerCands preds).product (victimCands preds),
              ¬ validPair kv) ∧
         (∀ kc vc, findBestKillPairStrict preds = some (kc, vc) →
            ∃ l1 kv l2,
              (killerCands preds).product (victimCands preds) = l1 ++ kv :: l2 ∧
              kv.1.cls = kc ∧ kv.2.cls = vc ∧ validPair kv ∧
              (∀ x ∈ (killerCands preds).product (victimCands preds),
                validPair x → pairScore x ≤ pairScore kv) ∧
              (∀ x ∈ l1, validPair x → pairScore x < pairScore kv))))) := by
  have hscore : ∀ kv ∈ (killerCands preds).product (victimCands preds),
      0 ≤ pairScore kv := by
    rintro ⟨k, v⟩ hkv
    obtain ⟨hk, hv⟩ := List.mem_product.mp hkv
    have hk' : k ∈ preds := by
      rw [killerCands] at hk
      cases hh : (sortByX preds).head? with
      | none => rw [hh] at hk; simp at hk
      | some p0 =>
        rw [hh] at hk
        exact (sortByX_perm preds).mem_iff.mp (List.mem_filter.mp hk).1
    have hv' : v ∈ preds := by
      rw [victimCands] at hv
      cases hh : (sortByX preds).getLast? with
      | none => rw [hh] at hv; simp at hv
      | some pl =>
        rw [hh] at hv
        exact (sortByX_perm preds).mem_iff.mp (List.mem_filter.mp hv).1
    have := hconf k hk'
    have := hconf v hv'
    rw [pairScore]
    dsimp only
    linarith
  refine ⟨?_, ?_⟩
  · intro h
    rw [findBestKillPairStrict, if_pos h]
  · intro p0 pl hp0 hpl
    refine ⟨fun p hp => ⟨sortByX_head_le preds p0 hp0 p hp,
        sortByX_getLast_ge preds pl hpl p hp⟩,
      killerCands_mem preds p0 hp0, victimCands_mem preds pl hpl, ?_, ?_⟩
    · intro hlen hspread
      rw [findBestKillPairStrict, if_neg hlen]
      simp only [hp0, hpl]
      rw [if_pos hspread]
    · intro hlen hspread
      have hres : findBestKillPairStrict preds =
          (((killerCands preds).product (victimCands preds)).foldl
            killPairStep (none, -999)).1 := by
        rw [findBestKillPairStrict, if_neg hlen]
        simp only [hp0, hpl]
        rw [if_neg hspread]
      rw [hres, foldl_killPairStep_eq]
      cases hfp : firstPairAbove (-999) ((killerCands preds).product (victimCands preds))
      · constructor
        · constructor
          · intro _ kv hkv hvkv
            have hle := (firstPairAbove_eq_none _ _).mp hfp kv hkv hvkv
            have h0 := hscore kv hkv
            linarith
          · intro _; rfl
        · intro kc vc hcontra
          simp at hcontra
      · rename_i kv
        obtain ⟨hvkv, _, hmax, l1, l2, heq, hfirst⟩ := firstPairAbove_spec _ _ _ hfp
        have hkvmem : kv ∈ (killerCands preds).product (victimCands preds) := by
          rw [heq]; simp
        constructor
        · refine iff_of_false (by simp) ?_
          intro hall
          exact hall kv hkvmem hvkv
        · intro kc vc hsome
          obtain ⟨h1, h2⟩ : kv.1.cls = kc ∧ kv.2.cls = vc := by
            simpa using hsome
          exact ⟨l1, kv, l2, heq, h1, h2, hvkv, hmax, hfirst⟩

/-- Witness for C7: for the x-sorted kill-feed detections
`jett_e` (x = 10, conf 1), `omen_e` (x = 95, conf 3), `sage_f` (x = 100,
conf 2) the resolver returns `("jett_e", "sage_f")` — the only
cross-faction pair — and that pair maximizes summed confidence among the
valid candidate pairs; a single detection resolves to nothing. -/
theorem C7_kill_pair_resolver_witness :
    findBestKillPairStrict
        [⟨"jett_e", 10, 1⟩, ⟨"omen_e", 95, 3⟩, ⟨"sage_f", 100, 2⟩]
      = some ("jett_e", "sage_f") ∧
    findBestKillPairStrict [⟨"jett_e", 10, 1⟩] = none ∧
    (∃ l1 kv l2,
      [((⟨"jett_e", 10, 1⟩ : KillPred), (⟨"omen_e", 95, 3⟩ : KillPred)),
       (⟨"jett_e", 10, 1⟩, ⟨"sage_f", 100, 2⟩)] = l1 ++ kv :: l2 ∧
      kv.1.cls = "jett_e" ∧ kv.2.cls = "sage_f" ∧ validPair kv ∧
      (∀ x ∈ [((⟨"jett_e", 10, 1⟩ : KillPred), (⟨"omen_e", 95, 3⟩ : KillPred)),
              (⟨"jett_e", 10, 1⟩, ⟨"sage_f", 100, 2⟩)],
        validPair x → pairScore x ≤ pairScore kv) ∧
      (∀ x ∈ l1, validPair x → pairScore x < pairScore kv)) := by
  have hconf : ∀ p ∈ [(⟨"jett_e", 10, 1⟩ : KillPred), ⟨"omen_e", 95, 3⟩,
      ⟨"sage_f", 100, 2⟩], 0 ≤ p.confidence := by
    intro p hp
    simp only [List.mem_cons, List.not_mem_nil, or_false] at hp
    rcases hp with rfl | rfl | rfl <;> norm_num
  have hsort : sortByX [⟨"jett_e", 10, 1⟩, ⟨"omen_e", 95, 3⟩, ⟨"sage_f", 100, 2⟩]
      = [⟨"jett_e", 10, 1⟩, ⟨"omen_e", 95, 3⟩, ⟨"sage_f", 100, 2⟩] :=
    List.mergeSort_of_sorted (by decide)
  have hhead : (sortByX [⟨"jett_e", 10, 1⟩, ⟨"omen_e", 95, 3⟩,
      ⟨"sage_f", 100, 2⟩]).head? = some ⟨"jett_e", 10, 1⟩ := by rw [hsort]; rfl
  have hlast : (sortByX [⟨"jett_e", 10, 1⟩, ⟨"omen_e", 95, 3⟩,
      ⟨"sage_f", 100, 2⟩]).getLast? = some ⟨"sage_f", 100, 2⟩ := by rw [hsort]; rfl
  have hkill : killerCands [⟨"jett_e", 10, 1⟩, ⟨"omen_e", 95, 3⟩,
      ⟨"sage_f", 100, 2⟩] = [⟨"jett_e", 10, 1⟩] := by
    rw [killerCands, hhead, hsort]
    rfl
  have hvict : victimCands [⟨"jett_e", 10, 1⟩, ⟨"omen_e", 95, 3⟩,
      ⟨"sage_f", 100, 2⟩] = [⟨"omen_e", 95, 3⟩, ⟨"sage_f", 100, 2⟩] := by
    rw [victimCands, hlast, hsort]
    rfl
  have hprod : (killerCands [⟨"jett_e", 10, 1⟩, ⟨"omen_e", 95, 3⟩,
        ⟨"sage_f", 100, 2⟩]).product
      (victimCands [⟨"jett_e", 10, 1⟩, ⟨"omen_e", 95, 3⟩, ⟨"sage_f", 100, 2⟩]) =
      [(⟨"jett_e", 10, 1⟩, ⟨"omen_e", 95, 3⟩),
       (⟨"jett_e", 10, 1⟩, ⟨"sage_f", 100, 2⟩)] := by
    rw [hkill, hvict]
    rfl
  have hne : (⟨"jett_e", 10, 1⟩ : KillPred) ≠ ⟨"sage_f", 100, 2⟩ := by
    intro hc
    exact absurd (congrArg KillPred.cls hc) (by decide)
  have hstep1 : killPairStep (none, -999) (⟨"jett_e", 10, 1⟩, ⟨"omen_e", 95, 3⟩)
      = (none, -999) := by
    rw [killPairStep, if_neg, if_pos (by decide)]
    intro hc
    exact absurd (congrArg KillPred.cls hc) (by decide)
  have hstep2 : killPairStep (none, -999) (⟨"jett_e", 10, 1⟩, ⟨"sage_f", 100, 2⟩)
      = (some ("jett_e", "sage_f"), 3) := by
    rw [killPairStep, if_neg hne, if_neg (by decide), if_pos (by norm_num [pairScore])]
    norm_num [pairScore]
  have hmain : findBestKillPairStrict [⟨"jett_e", 10, 1⟩, ⟨"omen_e", 95, 3⟩,
      ⟨"sage_f", 100, 2⟩] = some ("jett_e", "sage_f") := by
    rw [findBestKillPairStrict, if_neg (by decide)]
    simp only [hhead, hlast]
    rw [if_neg (by decide), hprod]
    rw [List.foldl_cons, hstep1, List.foldl_cons, hstep2, List.foldl_nil]
  refine ⟨hmain, ?_, ?_⟩
  · exact (C7_kill_pair_resolver [⟨"jett_e", 10, 1⟩] (by
      intro p hp
      simp only [List.mem_cons, List.not_mem_nil, or_false] at hp
      rw [hp]
      norm_num)).1 (by decide)
  · obtain ⟨l1, kv, l2, heq, h1, h2, hv, hmax, hfirst⟩ :=
      ((C7_kill_pair_resolver _ hconf).2 _ _ hhead hlast).2.2.2.2
        (by decide) (by decide) |>.2 "jett_e" "sage_f" hmain
    rw [hprod] at heq hmax
    exact ⟨l1, kv, l2, heq, h1, h2, hv, hmax, hfirst⟩

/-! ## Lemmas about focal-point scoring -/

/-- The first valid candidate whose `invScoreSq` drops strictly below `s`,
then below each accepted value in turn — the reference semantics of the
`score > max_score` scan (score order is reversed by `invScoreSq`). -/
def firstAbilityBelow (evType : String) (fps : ℚ) (evFrame : ℕ) (p : Pos)
    (s : ℚ) : List TrailObj → Option TrailObj
  | [] => none
  | ab :: l =>
    if focalCand evType fps evFrame ab = true ∧ invScoreSq fps evFrame p ab < s then
      match firstAbilityBelow evType fps evFrame p (invScoreSq fps evFrame p ab) l with
      | some b => some b
      | none => some ab
    else firstAbilityBelow evType fps evFrame p s l

lemma foldl_bestAbilityStep_some (evType : String) (fps : ℚ) (evFrame : ℕ)
    (p : Pos) (l : List TrailObj) :
    ∀ (a0 : TrailObj) (i0 : ℚ),
      l.foldl (bestAbilityStep evType fps evFrame p) (some (a0, i0)) =
        match firstAbilityBelow evType fps evFrame p i0 l with
        | some b => some (b, invScoreSq fps evFrame p b)
        | none => some (a0, i0) := by
  induction l with
  | nil => intro a0 i0; rfl
  | cons ab rest ih =>
    intro a0 i0
    rw [List.foldl_cons]
    by_cases hc : focalCand evType fps evFrame ab = true
    · by_cases hlt : invScoreSq fps evFrame p ab < i0
      · have hstep : bestAbilityStep evType fps evFrame p (some (a0, i0)) ab
            = some (ab, invScoreSq fps evFrame p ab) := by
          rw [bestAbilityStep, if_pos hc]
          simp [hlt]
        rw [hstep, ih, firstAbilityBelow, if_pos ⟨hc, hlt⟩]
        cases firstAbilityBelow evType fps evFrame p (invScoreSq fps evFrame p ab) rest
          <;> rfl
      · have hstep : bestAbilityStep evType fps evFrame p (some (a0, i0)) ab
            = some (a0, i0) := by
          rw [bestAbilityStep, if_pos hc]
          simp [hlt]
        rw [hstep, ih, firstAbilityBelow, if_neg (fun hcc => hlt hcc.2)]
    · have hstep : bestAbilityStep evType fps evFrame p (some (a0, i0)) ab
          = some (a0, i0) := by
        rw [bestAbilityStep, if_neg hc]
      rw [hstep, ih, firstAbilityBelow, if_neg (fun hcc => hc hcc.1)]

lemma foldl_bestAbilityStep_none_iff (evType : String) (fps : ℚ) (evFrame : ℕ)
    (p : Pos) :
    ∀ l : List TrailObj,
      (l.foldl (bestAbilityStep evType fps evFrame p) none = none ↔
        ∀ ab ∈ l, ¬ (focalCand evType fps evFrame ab = true)) := by
  intro l
  induction l with
  | nil => simp
  | cons ab rest ih =>
    rw [List.foldl_cons]
    by_cases hc : focalCand evType fps evFrame ab = true
    · have hstep : bestAbilityStep evType fps evFrame p none ab
          = some (ab, invScoreSq fps evFrame p ab) := by
        rw [bestAbilityStep, if_pos hc]
      rw [hstep, foldl_bestAbilityStep_some]
      constructor
      · intro hcon
        cases hx : firstAbilityBelow evType fps evFrame p
            (invScoreSq fps evFrame p ab) rest <;> rw [hx] at hcon <;> simp at hcon
      · intro hall
        exact absurd hc (hall ab (by simp))
    · have hstep : bestAbilityStep evType fps evFrame p none ab = none := by
        rw [bestAbilityStep, if_neg hc]
      rw [hstep, ih]
      constructor
      · intro hall ab' hm hc'
        rcases List.mem_cons.mp hm with rfl | hm2
        · exact hc hc'
        · exact hall ab' hm2 hc'
      · intro hall ab' hm
        exact hall ab' (by simp [hm])

lemma firstAbilityBelow_eq_none (evType : String) (fps : ℚ) (evFrame : ℕ)
    (p : Pos) (s : ℚ) :
    ∀ l : List TrailObj,
      (firstAbilityBelow evType fps evFrame p s l = none ↔
        ∀ ab ∈ l, focalCand evType fps evFrame ab = true →
          s ≤ invScoreSq fps evFrame p ab) := by
  intro l
  induction l generalizing s with
  | nil => simp [firstAbilityBelow]
  | cons ab rest ih =>
    rw [firstAbilityBelow]
    by_cases h : focalCand evType fps evFrame ab = true ∧
        invScoreSq fps evFrame p ab < s
    · rw [if_pos h]
      constructor
      · intro hc
        cases hx : firstAbilityBelow evType fps evFrame p
            (invScoreSq fps evFrame p ab) rest <;> rw [hx] at hc <;> simp at hc
      · intro hall
        exact absurd (hall ab (by simp) h.1) (not_le.mpr h.2)
    · rw [if_neg h, ih]
      constructor
      · intro hall ab' hm hc'
        rcases List.mem_cons.mp hm with rfl | hm2
        · exact not_lt.mp (fun hlt => h ⟨hc', hlt⟩)
        · exact hall ab' hm2 hc'
      · intro hall ab' hm hc'
        exact hall ab' (by simp [hm]) hc'

lemma firstAbilityBelow_spec (evType : String) (fps : ℚ) (evFrame : ℕ)
    (p : Pos) (l : List TrailObj) :
    ∀ (s : ℚ) (b : TrailObj), firstAbilityBelow evType fps evFrame p s l = some b →
      b ∈ l ∧ focalCand evType fps evFrame b = true ∧
      invScoreSq fps evFrame p b < s ∧
      ∀ x ∈ l, focalCand evType fps evFrame x = true →
        invScoreSq fps evFrame p b ≤ invScoreSq fps evFrame p x := by
  induction l with
  | nil => intro s b h; simp [firstAbilityBelow] at h
  | cons hd rest ih =>
    intro s b h
    rw [firstAbilityBelow] at h
    by_cases hc : focalCand evType fps evFrame hd = true ∧
        invScoreSq fps evFrame p hd < s
    · rw [if_pos hc] at h
      cases hx : firstAbilityBelow evType fps evFrame p
          (invScoreSq fps evFrame p hd) rest
      · rw [hx] at h
        obtain rfl : hd = b := by simpa using h
        refine ⟨by simp, hc.1, hc.2, ?_⟩
        intro x hx' hvx
        rcases List.mem_cons.mp hx' with rfl | hm
        · exact le_refl _
        · exact (firstAbilityBelow_eq_none evType fps evFrame p _ _).mp hx x hm hvx
      · rename_i b2
        rw [hx] at h
        obtain rfl : b2 = b := by simpa using h
        obtain ⟨hmem, hvb, hltb, hmin⟩ := ih _ _ hx
        refine ⟨by simp [hmem], hvb, lt_trans hltb hc.2, ?_⟩
        intro x hx' hvx
        rcases List.mem_cons.mp hx' with rfl | hm
        · exact le_of_lt hltb
        · exact hmin x hm hvx
    · rw [if_neg hc] at h
      obtain ⟨hmem, hvb, hltb, hmin⟩ := ih _ _ h
      have hhd : focalCand evType fps evFrame hd = true →
          s ≤ invScoreSq fps evFrame p hd :=
        fun hvh => not_lt.mp (fun hl => hc ⟨hvh, hl⟩)
      refine ⟨by simp [hmem], hvb, hltb, ?_⟩
      intro x hx' hvx
      rcases List.mem_cons.mp hx' with rfl | hm
      · exact le_trans (le_of_lt hltb) (hhd hvx)
      · exact hmin x hm hvx

lemma bestAbilityFor_none_iff (evType : String) (fps : ℚ) (evFrame : ℕ)
    (p : Pos) (abilities : List TrailObj) :
    bestAbilityFor evType fps evFrame p abilities = none ↔
      ∀ ab ∈ abilities, ¬ (focalCand evType fps evFrame ab = true) := by
  rw [bestAbilityFor]
  exact foldl_bestAbilityStep_none_iff evType fps evFrame p abilities

lemma bestAbilityFor_some_spec (evType : String) (fps : ℚ) (evFrame : ℕ)
    (p : Pos) (abilities : List TrailObj) (ab : TrailObj) (inv : ℚ) :
    bestAbilityFor evType fps evFrame p abilities = some (ab, inv) →
      ab ∈ abilities ∧ focalCand evType fps evFrame ab = true ∧
      inv = invScoreSq fps evFrame p ab ∧
      ∀ x ∈ abilities, focalCand evType fps evFrame x = true →
        invScoreSq fps evFrame p ab ≤ invScoreSq fps evFrame p x := by
  rw [bestAbilityFor]
  induction abilities with
  | nil => intro h; simp at h
  | cons hd rest ih =>
    intro h
    rw [List.foldl_cons] at h
    by_cases hc : focalCand evType fps evFrame hd = true
    · rw [show bestAbilityStep evType fps evFrame p none hd
          = some (hd, invScoreSq fps evFrame p hd) from by
            rw [bestAbilityStep, if_pos hc],
        foldl_bestAbilityStep_some] at h
      cases hx : firstAbilityBelow evType fps evFrame p
          (invScoreSq fps evFrame p hd) rest
      · rw [hx] at h
        obtain ⟨rfl, rfl⟩ : hd = ab ∧ invScoreSq fps evFrame p hd = inv := by
          constructor <;> · injection h with h'; cases h' ; rfl
        refine ⟨by simp, hc, rfl, ?_⟩
        intro x hx' hvx
        rcases List.mem_cons.mp hx' with rfl | hm
        · exact le_refl _
        · exact (firstAbilityBelow_eq_none evType fps evFrame p _ _).mp hx x hm hvx
      · rename_i b2
        rw [hx] at h
        obtain ⟨rfl, rfl⟩ : b2 = ab ∧ invScoreSq fps evFrame p b2 = inv := by
          constructor <;> · injection h with h'; cases h'; rfl
        obtain ⟨hmem, hvb, hltb, hmin⟩ :=
          firstAbilityBelow_spec evType fps evFrame p rest _ _ hx
        refine ⟨by simp [hmem], hvb, rfl, ?_⟩
        intro x hx' hvx
        rcases List.mem_cons.mp hx' with rfl | hm
        · exact le_of_lt hltb
        · exact hmin x hm hvx
    · rw [show bestAbilityStep evType fps evFrame p none hd = none from by
          rw [bestAbilityStep, if_neg hc]] at h
      obtain ⟨hmem, hvb, hinv, hmin⟩ := ih h
      refine ⟨by simp [hmem], hvb, hinv, ?_⟩
      intro x hx' hvx
      rcases List.mem_cons.mp hx' with rfl | hm
      · exact absurd hvx hc
      · exact hmin x hm hvx

lemma sqDistP_nonneg (p : Pos) (ab : TrailObj) : 0 ≤ sqDistP p ab := by
  rw [sqDistP]
  positivity

/-- Modelled from the spec (§4.7): the real-valued focal score
`1/Δt² · 1/max(dist, 1)` with `dist` the planar Euclidean distance.  The
code computes this with floats; the embedding decides every comparison of
these scores exactly through the order-reversing rational `invScoreSq`,
and this definition only appears in specifications. -/
noncomputable def scoreSpec (fps : ℚ) (evFrame : ℕ) (p : Pos) (ab : TrailObj) : ℝ :=
  1 / (((deltaT fps evFrame ab : ℚ) : ℝ) ^ 2) *
    (1 / max (Real.sqrt ((sqDistP p ab : ℤ) : ℝ)) 1)

lemma scoreSpec_eq (fps : ℚ) (evFrame : ℕ) (p : Pos) (ab : TrailObj) :
    scoreSpec fps evFrame p ab =
      1 / (((deltaT fps evFrame ab : ℚ) : ℝ) ^ 2 *
        max (Real.sqrt ((sqDistP p ab : ℤ) : ℝ)) 1) := by
  rw [scoreSpec, div_mul_div_comm, one_mul]

lemma scoreDen_pos (fps : ℚ) (evFrame : ℕ) (p : Pos) (ab : TrailObj)
    (h : 1 < deltaT fps evFrame ab) :
    0 < ((deltaT fps evFrame ab : ℚ) : ℝ) ^ 2 *
      max (Real.sqrt ((sqDistP p ab : ℤ) : ℝ)) 1 := by
  have h1 : (1 : ℝ) < ((deltaT fps evFrame ab : ℚ) : ℝ) := by exact_mod_cast h
  have h2 : (0 : ℝ) < max (Real.sqrt ((sqDistP p ab : ℤ) : ℝ)) 1 :=
    lt_of_lt_of_le zero_lt_one (le_max_right _ _)
  have h3 : (0 : ℝ) < ((deltaT fps evFrame ab : ℚ) : ℝ) ^ 2 :=
    pow_pos (by linarith) 2
  exact mul_pos h3 h2

lemma maxSqrt_sq (s : ℤ) (hs : 0 ≤ s) :
    (max (Real.sqrt ((s : ℤ) : ℝ)) 1) ^ 2 = max ((s : ℤ) : ℝ) 1 := by
  have hs' : (0 : ℝ) ≤ ((s : ℤ) : ℝ) := by exact_mod_cast hs
  rcases le_total (Real.sqrt ((s : ℤ) : ℝ)) 1 with h | h
  · rw [max_eq_right h]
    have hs1 : ((s : ℤ) : ℝ) ≤ 1 := by
      calc ((s : ℤ) : ℝ) = Real.sqrt ((s : ℤ) : ℝ) ^ 2 := (Real.sq_sqrt hs').symm
        _ ≤ 1 ^ 2 := pow_le_pow_left₀ (Real.sqrt_nonneg _) h 2
        _ = 1 := one_pow 2
    rw [max_eq_right hs1, one_pow]
  · rw [max_eq_left h, Real.sq_sqrt hs']
    have hs1 : (1 : ℝ) ≤ ((s : ℤ) : ℝ) := by
      calc (1 : ℝ) = 1 ^ 2 := (one_pow 2).symm
        _ ≤ Real.sqrt ((s : ℤ) : ℝ) ^ 2 := pow_le_pow_left₀ (by norm_num) h 2
        _ = ((s : ℤ) : ℝ) := Real.sq_sqrt hs'
    rw [max_eq_left hs1]

lemma invScoreSq_cast (fps : ℚ) (evFrame : ℕ) (p : Pos) (ab : TrailObj) :
    ((invScoreSq fps evFrame p ab : ℚ) : ℝ) =
      (((deltaT fps evFrame ab : ℚ) : ℝ) ^ 2 *
        max (Real.sqrt ((sqDistP p ab : ℤ) : ℝ)) 1) ^ 2 := by
  have hM := maxSqrt_sq (sqDistP p ab) (sqDistP_nonneg p ab)
  rw [mul_pow, ← pow_mul, hM, invScoreSq]
  push_cast [Rat.cast_max]
  norm_num

lemma invScoreSq_le_iff (fps : ℚ) (evFrame : ℕ) (p : Pos) (a b : TrailObj)
    (ha : 1 < deltaT fps evFrame a) (hb : 1 < deltaT fps evFrame b) :
    invScoreSq fps evFrame p a ≤ invScoreSq fps evFrame p b ↔
      scoreSpec fps evFrame p b ≤ scoreSpec fps evFrame p a := by
  have hda := scoreDen_pos fps evFrame p a ha
  have hdb := scoreDen_pos fps evFrame p b hb
  rw [← Rat.cast_le (K := ℝ), invScoreSq_cast, invScoreSq_cast,
    pow_le_pow_iff_left₀ hda.le hdb.le (by norm_num)]
  rw [scoreSpec_eq, scoreSpec_eq]
  exact (one_div_le_one_div hdb hda).symm

lemma invScoreSq_floor_iff (fps : ℚ) (evFrame : ℕ) (p : Pos) (a : TrailObj)
    (ha : 1 < deltaT fps evFrame a) :
    invScoreSq fps evFrame p a < 10000 ↔ 1 / 100 < scoreSpec fps evFrame p a := by
  have hda := scoreDen_pos fps evFrame p a ha
  rw [← Rat.cast_lt (K := ℝ), invScoreSq_cast]
  have h2 : ((10000 : ℚ) : ℝ) = 100 ^ 2 := by norm_num
  rw [h2, pow_lt_pow_iff_left₀ hda.le (by norm_num) (by norm_num)]
  rw [scoreSpec_eq]
  exact (one_div_lt_one_div (by norm_num) hda).symm

lemma focalCand_iff (evType : String) (fps : ℚ) (evFrame : ℕ) (ab : TrailObj) :
    focalCand evType fps evFrame ab = true ↔
      ((evType = "spike_plant" → friendlyTag ab.cls = false) ∧
       1 < deltaT fps evFrame ab ∧ deltaT fps evFrame ab < 10) := by
  rw [focalCand]
  by_cases h : evType = "spike_plant"
  · rw [if_pos h]
    simp only [h, Bool.and_eq_true, Bool.not_eq_true', decide_eq_true_eq]
    tauto
  · rw [if_neg h]
    simp [h]

/-- **C8.**  For an event with a valid anchor position, among tactical
trail detections — excluding friendly-tagged abilities when the anchor is
a spike plant — lying strictly between 1 and 10 seconds before the anchor,
the attributor attributes the ability maximizing the score
`1/Δt² · 1/max(dist, 1)` (planar Euclidean `dist`) exactly when that
maximum exceeds the `0.01` floor. -/
theorem C8_focal_scoring (ev : Event) (trail : List TrailObj) (fps : ℚ) (p : Pos) :
    (∀ ab, focalChoice ev.type fps ev.frame p
        (trail.filter (fun t => isTactical t.cls)) = some ab →
      ab ∈ trail ∧ isTactical ab.cls = true ∧
      (ev.type = "spike_plant" → friendlyTag ab.cls = false) ∧
      1 < deltaT fps ev.frame ab ∧ deltaT fps ev.frame ab < 10 ∧
      1 / 100 < scoreSpec fps ev.frame p ab ∧
      (∀ ab' ∈ trail, isTactical ab'.cls = true →
        (ev.type = "spike_plant" → friendlyTag ab'.cls = false) →
        1 < deltaT fps ev.frame ab' → deltaT fps ev.frame ab' < 10 →
        scoreSpec fps ev.frame p ab' ≤ scoreSpec fps ev.frame p ab)) ∧
    ((∃ ab' ∈ trail, isTactical ab'.cls = true ∧
        (ev.type = "spike_plant" → friendlyTag ab'.cls = false) ∧
        1 < deltaT fps ev.frame ab' ∧ deltaT fps ev.frame ab' < 10 ∧
        1 / 100 < scoreSpec fps ev.frame p ab') →
      ∃ ab, focalChoice ev.type fps ev.frame p
        (trail.filter (fun t => isTactical t.cls)) = some ab) := by
  constructor
  · intro ab hch
    rw [focalChoice] at hch
    cases hb : bestAbilityFor ev.type fps ev.frame p
        (trail.filter (fun t => isTactical t.cls))
    · rw [hb] at hch; simp at hch
    · rename_i pr
      obtain ⟨ab0, inv⟩ := pr
      rw [hb] at hch
      have hch' : (if inv < 10000 then some ab0 else none) = some ab := hch
      by_cases hfl : inv < 10000
      · rw [if_pos hfl] at hch'
        obtain rfl : ab0 = ab := by simpa using hch'
        obtain ⟨hmem, hcand, hinv, hmin⟩ :=
          bestAbilityFor_some_spec ev.type fps ev.frame p _ ab0 inv hb
        obtain ⟨hmemt, htac⟩ := List.mem_filter.mp hmem
        obtain ⟨hfr, h1, h2⟩ := (focalCand_iff _ _ _ _).mp hcand
        subst hinv
        refine ⟨hmemt, htac, hfr, h1, h2,
          (invScoreSq_floor_iff fps ev.frame p ab0 h1).mp hfl, ?_⟩
        intro ab' hmem' htac' hfr' h1' h2'
        have hcand' : focalCand ev.type fps ev.frame ab' = true :=
          (focalCand_iff _ _ _ _).mpr ⟨hfr', h1', h2'⟩
        have hmemf' : ab' ∈ trail.filter (fun t => isTactical t.cls) :=
          List.mem_filter.mpr ⟨hmem', htac'⟩
        exact (invScoreSq_le_iff fps ev.frame p ab0 ab' h1 h1').mp
          (hmin ab' hmemf' hcand')
      · rw [if_neg hfl] at hch'
        simp at hch'
  · rintro ⟨ab', hmem', htac', hfr', h1', h2', hfl'⟩
    have hcand' : focalCand ev.type fps ev.frame ab' = true :=
      (focalCand_iff _ _ _ _).mpr ⟨hfr', h1', h2'⟩
    have hmemf' : ab' ∈ trail.filter (fun t => isTactical t.cls) :=
      List.mem_filter.mpr ⟨hmem', htac'⟩
    cases hb : bestAbilityFor ev.type fps ev.frame p
        (trail.filter (fun t => isTactical t.cls))
    · exact absurd hcand'
        ((bestAbilityFor_none_iff _ _ _ _ _).mp hb ab' hmemf')
    · rename_i pr
      obtain ⟨ab0, inv⟩ := pr
      obtain ⟨hmem0, hcand0, hinv0, hmin0⟩ :=
        bestAbilityFor_some_spec ev.type fps ev.frame p _ ab0 inv hb
      obtain ⟨_, h10, h20⟩ := (focalCand_iff _ _ _ _).mp hcand0
      have hfloor' : invScoreSq fps ev.frame p ab' < 10000 :=
        (invScoreSq_floor_iff fps ev.frame p ab' h1').mpr hfl'
      have hle : invScoreSq fps ev.frame p ab0 ≤ invScoreSq fps ev.frame p ab' :=
        hmin0 ab' hmemf' hcand'
      refine ⟨ab0, ?_⟩
      have hif : (if inv < 10000 then some ab0 else none) = some ab0 := by
        rw [if_pos (by rw [hinv0]; exact lt_of_le_of_lt hle hfloor')]
      rw [focalChoice, hb]
      exact hif

/-- Witness for C8 (the spec's end-to-end scenario C): an ability cast at
frame 1000, position `(50, 50)`, anchored by a kill at frame 1200
(`Δt = 10/3 s` at 60 fps) at position `(52, 51)` is attributed: its score
`9/(100·√5) ≈ 0.04` clears the `0.01` floor. -/
theorem C8_focal_scoring_witness :
    focalChoice "first_blood" 60 1200 ⟨52, 51⟩
        ([⟨1000, "smoke", 50, 50, (0, 255, 255)⟩].filter (fun t => isTactical t.cls))
      = some ⟨1000, "smoke", 50, 50, (0, 255, 255)⟩ ∧
    (1 : ℝ) / 100 < scoreSpec 60 1200 ⟨52, 51⟩ ⟨1000, "smoke", 50, 50, (0, 255, 255)⟩ ∧
    (∃ ab, focalChoice "first_blood" 60 1200 ⟨52, 51⟩
        ([⟨1000, "smoke", 50, 50, (0, 255, 255)⟩].filter (fun t => isTactical t.cls))
      = some ab) := by
  have hcand : focalCand "first_blood" 60 1200 ⟨1000, "smoke", 50, 50, (0, 255, 255)⟩
      = true := by
    rw [focalCand, if_neg (by decide)]
    simp only [Bool.true_and, Bool.and_eq_true, decide_eq_true_eq]
    norm_num [deltaT]
  have hstep : bestAbilityStep "first_blood" 60 1200 ⟨52, 51⟩ none
      ⟨1000, "smoke", 50, 50, (0, 255, 255)⟩
      = some (⟨1000, "smoke", 50, 50, (0, 255, 255)⟩,
          invScoreSq 60 1200 ⟨52, 51⟩ ⟨1000, "smoke", 50, 50, (0, 255, 255)⟩) := by
    rw [bestAbilityStep, if_pos hcand]
  have hfil : [(⟨1000, "smoke", 50, 50, (0, 255, 255)⟩ : TrailObj)].filter
      (fun t => isTactical t.cls) = [⟨1000, "smoke", 50, 50, (0, 255, 255)⟩] := by
    decide
  have hbest : bestAbilityFor "first_blood" 60 1200 ⟨52, 51⟩
      ([⟨1000, "smoke", 50, 50, (0, 255, 255)⟩].filter (fun t => isTactical t.cls))
      = some (⟨1000, "smoke", 50, 50, (0, 255, 255)⟩,
          invScoreSq 60 1200 ⟨52, 51⟩ ⟨1000, "smoke", 50, 50, (0, 255, 255)⟩) := by
    rw [hfil, bestAbilityFor, List.foldl_cons, hstep, List.foldl_nil]
  have hinv : invScoreSq 60 1200 ⟨52, 51⟩ ⟨1000, "smoke", 50, 50, (0, 255, 255)⟩
      = 50000 / 81 := by
    rw [invScoreSq, deltaT, sqDistP]
    norm_num
  have hchoice : focalChoice "first_blood" 60 1200 ⟨52, 51⟩
      ([⟨1000, "smoke", 50, 50, (0, 255, 255)⟩].filter (fun t => isTactical t.cls))
      = some ⟨1000, "smoke", 50, 50, (0, 255, 255)⟩ := by
    rw [focalChoice, hbest]
    have hif : (if invScoreSq 60 1200 ⟨52, 51⟩ ⟨1000, "smoke", 50, 50, (0, 255, 255)⟩
          < 10000
        then some (⟨1000, "smoke", 50, 50, (0, 255, 255)⟩ : TrailObj) else none)
        = some ⟨1000, "smoke", 50, 50, (0, 255, 255)⟩ := by
      rw [if_pos (by rw [hinv]; norm_num)]
    exact hif
  have hthm := C8_focal_scoring
    ⟨1200, "first_blood", "a", "b", some ⟨52, 51⟩, none, none, none⟩
    [⟨1000, "smoke", 50, 50, (0, 255, 255)⟩] 60 ⟨52, 51⟩
  obtain ⟨hmem, htac, hfr, h1, h2, hfl, hmax⟩ := hthm.1 _ hchoice
  exact ⟨hchoice, hfl,
    hthm.2 ⟨⟨1000, "smoke", 50, 50, (0, 255, 255)⟩, hmem, htac, hfr, h1, h2, hfl⟩⟩

/-! ## Lemmas about the stepping loop -/

lemma speedMultiplier_nonneg (events : List Event) (total : ℕ) (fps : ℚ) :
    0 ≤ (speedMultiplier events total fps).1 := by
  rw [speedMultiplier]
  split
  · norm_num
  · rename_i h
    have hpos : (0 : ℚ) < (targetFrames fps : ℚ) - (eventFramesCount events total fps : ℚ) := by
      have hZ : (0 : ℤ) < targetFrames fps - (eventFramesCount events total fps : ℤ) := by omega
      exact_mod_cast hZ
    exact div_nonneg (by positivity) hpos.le

lemma stepCursor_ge (events : List Event) (total : ℕ) (fps : ℚ) (c : ℚ) :
    c + min 1 (speedMultiplier events total fps).1 ≤ stepCursor events total fps c := by
  rw [stepCursor]
  split
  · linarith [min_le_left 1 (speedMultiplier events total fps).1]
  · linarith [min_le_right 1 (speedMultiplier events total fps).1]

lemma stepCursor_le (events : List Event) (total : ℕ) (fps : ℚ) (c : ℚ) :
    stepCursor events total fps c ≤ c + max 1 (speedMultiplier events total fps).1 := by
  rw [stepCursor]
  split
  · linarith [le_max_left 1 (speedMultiplier events total fps).1]
  · linarith [le_max_right 1 (speedMultiplier events total fps).1]

lemma runLoop_stable (events : List Event) (total : ℕ) (fps : ℚ) :
    ∀ (n : ℕ) (c : ℚ), (total : ℚ) ≤ c → runLoop events total fps c n = c := by
  intro n
  induction n with
  | zero => intro c _; rfl
  | succ n _ => intro c hc; rw [runLoop, if_neg (not_lt.mpr hc)]

lemma runLoop_progress (events : List Event) (total : ℕ) (fps : ℚ) (δ : ℚ)
    (hδ : 0 ≤ δ)
    (hstep : ∀ c : ℚ, 0 ≤ c → c < (total : ℚ) →
      c + δ ≤ stepCursor events total fps c) :
    ∀ (n : ℕ) (c : ℚ), 0 ≤ c →
      (total : ℚ) ≤ runLoop events total fps c n ∨
        c + n * δ ≤ runLoop events total fps c n := by
  intro n
  induction n with
  | zero => intro c _; right; simp [runLoop]
  | succ n ih =>
    intro c hc
    rw [runLoop]
    by_cases h : c < (total : ℚ)
    · rw [if_pos h]
      have hsc := hstep c hc h
      rcases ih (stepCursor events total fps c) (by linarith) with h1 | h1
      · exact Or.inl h1
      · right
        have hcast : ((n : ℚ) + 1) * δ = n * δ + δ := by ring
        push_cast
        rw [hcast]
        linarith
    · rw [if_neg h]
      exact Or.inl (not_lt.mp h)

lemma runLoop_lt_bound (events : List Event) (total : ℕ) (fps : ℚ) :
    ∀ (n : ℕ) (c : ℚ),
      c < (total : ℚ) + max 1 (speedMultiplier events total fps).1 →
      runLoop events total fps c n
        < (total : ℚ) + max 1 (speedMultiplier events total fps).1 := by
  intro n
  induction n with
  | zero => intro c hc; simpa [runLoop]
  | succ n ih =>
    intro c hc
    rw [runLoop]
    by_cases h : c < (total : ℚ)
    · rw [if_pos h]
      refine ih _ (lt_of_le_of_lt (stepCursor_le events total fps c) ?_)
      linarith
    · rw [if_neg h]
      exact hc

lemma runLoop_reaches (events : List Event) (total : ℕ) (fps : ℚ) :
    ∃ n : ℕ, (total : ℚ) ≤ runLoop events total fps 0 n := by
  by_cases hm : 0 < (speedMultiplier events total fps).1
  · have hδ : 0 < min 1 (speedMultiplier events total fps).1 := lt_min one_pos hm
    obtain ⟨n, hn⟩ := exists_nat_gt ((total : ℚ) / min 1 (speedMultiplier events total fps).1)
    have htot : (total : ℚ) ≤ n * min 1 (speedMultiplier events total fps).1 := by
      rw [div_lt_iff₀ hδ] at hn
      linarith
    rcases runLoop_progress events total fps _ hδ.le
        (fun c _ hlt => stepCursor_ge events total fps c) n 0 (le_refl 0) with h | h
    · exact ⟨n, h⟩
    · refine ⟨n, le_trans htot ?_⟩
      simpa using h
  · have hm0 : (speedMultiplier events total fps).1 = 0 :=
      le_antisymm (not_lt.mp hm) (speedMultiplier_nonneg events total fps)
    have hE : eventFramesCount events total fps = total := by
      rw [speedMultiplier] at hm0
      by_cases hb : targetFrames fps - (eventFramesCount events total fps : ℤ) ≤ 0
      · rw [if_pos hb] at hm0
        norm_num at hm0
      · rw [if_neg hb] at hm0
        simp only at hm0
        have hden : (0 : ℚ) < (targetFrames fps : ℚ) - (eventFramesCount events total fps : ℚ) := by
          have hZ : (0 : ℤ) < targetFrames fps - (eventFramesCount events total fps : ℤ) := by omega
          exact_mod_cast hZ
        have hnum : ((total - eventFramesCount events total fps : ℕ) : ℚ) = 0 := by
          rcases div_eq_zero_iff.mp hm0 with h | h
          · exact h
          · exact absurd h hden.ne'
        have hles := eventFramesCount_le events total fps
        have : total - eventFramesCount events total fps = 0 := by exact_mod_cast hnum
        omega
    have hmaskall : ∀ f, f < total → isEventFrame events total fps f = true := by
      have hlen : (List.range total).countP (isEventFrame events total fps)
          = (List.range total).length := by
        rw [← eventFramesCount, hE, List.length_range]
      intro f hf
      exact List.countP_eq_length.mp hlen f (List.mem_range.mpr hf)
    have hstep1 : ∀ c : ℚ, 0 ≤ c → c < (total : ℚ) →
        c + 1 ≤ stepCursor events total fps c := by
      intro c hc hlt
      have hfl0 : 0 ≤ ⌊c⌋ := Int.floor_nonneg.mpr hc
      have hflt : ⌊c⌋ < (total : ℤ) := by
        have h1 : (⌊c⌋ : ℚ) ≤ c := Int.floor_le c
        exact_mod_cast lt_of_le_of_lt h1 hlt
      have hnat : (⌊c⌋).toNat < total := by omega
      rw [stepCursor, if_pos (hmaskall _ hnat)]
    rcases runLoop_progress events total fps 1 (by norm_num) hstep1 total 0 (le_refl 0)
      with h | h
    · exact ⟨total, h⟩
    · refine ⟨total, ?_⟩
      simpa using h

/-- **C2 (amended).**  On every output step the cursor advances by exactly
`1.0` inside an event window and by the non-event speed multiplier
otherwise; the loop terminates exactly when the cursor reaches the total
input frame count; the total advancement covers the full input length but
may exceed it by strictly less than one step (`max 1 multiplier`), because
a non-event step can jump past the end of the input (or clean over a short
event window); and `(T − E) · multiplier = N` holds exactly (in exact
rational arithmetic) whenever `E < T`. -/
theorem C2_stepping_loop (events : List Event) (total : ℕ) (fps : ℚ) :
    (∀ c : ℚ,
      (isEventFrame events total fps (⌊c⌋).toNat = true →
        stepCursor events total fps c = c + 1) ∧
      (isEventFrame events total fps (⌊c⌋).toNat = false →
        stepCursor events total fps c = c + (speedMultiplier events total fps).1)) ∧
    (∃ n : ℕ, (total : ℚ) ≤ runLoop events total fps 0 n) ∧
    (∀ n : ℕ, runLoop events total fps 0 n
        < (total : ℚ) + max 1 (speedMultiplier events total fps).1) ∧
    (∀ (c : ℚ) (n : ℕ), (total : ℚ) ≤ c → runLoop events total fps c n = c) ∧
    ((eventFramesCount events total fps : ℤ) < targetFrames fps →
      ((targetFrames fps : ℚ) - (eventFramesCount events total fps : ℚ)) *
          (speedMultiplier events total fps).1
        = ((total - eventFramesCount events total fps : ℕ) : ℚ)) := by
  refine ⟨?_, runLoop_reaches events total fps, ?_,
    fun c n hc => runLoop_stable events total fps n c hc, ?_⟩
  · intro c
    constructor
    · intro h
      rw [stepCursor, if_pos h]
    · intro h
      rw [stepCursor, if_neg (by simp [h])]
  · intro n
    apply runLoop_lt_bound
    have h1 : (1 : ℚ) ≤ max 1 (speedMultiplier events total fps).1 := le_max_left _ _
    have h0 : (0 : ℚ) ≤ (total : ℚ) := by positivity
    linarith
  · intro h
    have hsp : speedMultiplier events total fps =
        (((total - eventFramesCount events total fps : ℕ) : ℚ) /
          ((targetFrames fps : ℚ) - (eventFramesCount events total fps : ℚ)), false) := by
      rw [speedMultiplier, if_neg (by omega)]
    rw [hsp]
    dsimp only
    have hZ : (0 : ℤ) < targetFrames fps - (eventFramesCount events total fps : ℤ) := by
      omega
    have hne : (0 : ℚ) <
        (targetFrames fps : ℚ) - (eventFramesCount events total fps : ℚ) := by
      exact_mod_cast hZ
    rw [mul_comm, div_mul_cancel₀ _ hne.ne']

/-- **C2 (counterexample).**  With one spike-plant event at frame 4 in a
19-frame input at `fps = 1/3` — so the event window is the single frame 3,
`E = 1`, `T = 10`, and the non-event multiplier is `18/9 = 2` — the cursor
visits 0, 2, 4, …, 18 and then 20: it jumps clean over the event frame 3
and over the end of the input, and the loop's total advancement is
`20 ≠ 19`.  The claim that the total advancement sums to the full input
length is therefore false. -/
theorem C2_stepping_loop_counterexample :
    speedMultiplier
        [⟨4, "spike_plant", "Spike", "Site", some ⟨100, 100⟩, some ⟨100, 100⟩, none, none⟩]
        19 (1/3) = (2, false) ∧
    runLoop
        [⟨4, "spike_plant", "Spike", "Site", some ⟨100, 100⟩, some ⟨100, 100⟩, none, none⟩]
        19 (1/3) 0 12 = 20 ∧
    ((20 : ℚ) ≠ 19 ∧ (19 : ℚ) ≤ 20) := by
  have hwin : windowOf (1/3)
      ⟨4, "spike_plant", "Spike", "Site", some ⟨100, 100⟩, some ⟨100, 100⟩, none, none⟩
      = (3, 4) := by
    rw [windowOf, if_pos rfl]
    norm_num [SPIKE_PRE, SPIKE_POST, pyInt]
  have hmask : ∀ f : ℕ, isEventFrame
      [⟨4, "spike_plant", "Spike", "Site", some ⟨100, 100⟩, some ⟨100, 100⟩, none, none⟩]
      19 (1/3) f = decide ((3 : ℤ) ≤ (f : ℤ) ∧ (f : ℤ) < 4) := by
    intro f
    rw [isEventFrame]
    simp only [List.any_cons, List.any_nil, Bool.or_false, hwin]
    rw [show ((19 : ℕ) : ℤ) ⊓ 4 = (4 : ℤ) from by norm_num]
    simp [Bool.decide_and]
  have hE : eventFramesCount
      [⟨4, "spike_plant", "Spike", "Site", some ⟨100, 100⟩, some ⟨100, 100⟩, none, none⟩]
      19 (1/3) = 1 := by
    rw [eventFramesCount, List.countP_congr (fun f _ => by rw [hmask f])]
    decide
  have hT : targetFrames (1/3) = 10 := by norm_num [targetFrames, pyInt]
  have hsp : speedMultiplier
      [⟨4, "spike_plant", "Spike", "Site", some ⟨100, 100⟩, some ⟨100, 100⟩, none, none⟩]
      19 (1/3) = (2, false) := by
    rw [speedMultiplier, hE, hT, if_neg (by norm_num)]
    norm_num
  have hmf : ∀ f : ℕ, ¬((3 : ℤ) ≤ (f : ℤ) ∧ (f : ℤ) < 4) →
      isEventFrame
        [⟨4, "spike_plant", "Spike", "Site", some ⟨100, 100⟩, some ⟨100, 100⟩, none, none⟩]
        19 (1/3) f = false := by
    intro f h
    rw [hmask]
    simpa using h
  have hrun1 : ∀ (n : ℕ) (c : ℚ), c < ((19 : ℕ) : ℚ) →
      isEventFrame
        [⟨4, "spike_plant", "Spike", "Site", some ⟨100, 100⟩, some ⟨100, 100⟩, none, none⟩]
        19 (1/3) (⌊c⌋).toNat = false →
      runLoop
        [⟨4, "spike_plant", "Spike", "Site", some ⟨100, 100⟩, some ⟨100, 100⟩, none, none⟩]
        19 (1/3) c (n + 1) =
      runLoop
        [⟨4, "spike_plant", "Spike", "Site", some ⟨100, 100⟩, some ⟨100, 100⟩, none, none⟩]
        19 (1/3) (c + 2) n := by
    intro n c hlt hm
    rw [runLoop, if_pos hlt, stepCursor, if_neg (by simp only [hm]; decide), hsp]
  have hfinal : runLoop
      [⟨4, "spike_plant", "Spike", "Site", some ⟨100, 100⟩, some ⟨100, 100⟩, none, none⟩]
      19 (1/3) 0 12 = 20 := by
    rw [hrun1 11 0 (by norm_num) (hmf _ (by norm_num))]
    norm_num
    rw [hrun1 10 2 (by norm_num) (hmf _ (by norm_num))]
    norm_num
    rw [hrun1 9 4 (by norm_num) (hmf _ (by norm_num))]
    norm_num
    rw [hrun1 8 6 (by norm_num) (hmf _ (by norm_num))]
    norm_num
    rw [hrun1 7 8 (by norm_num) (hmf _ (by norm_num))]
    norm_num
    rw [hrun1 6 10 (by norm_num) (hmf _ (by norm_num))]
    norm_num
    rw [hrun1 5 12 (by norm_num) (hmf _ (by norm_num))]
    norm_num
    rw [hrun1 4 14 (by norm_num) (hmf _ (by norm_num))]
    norm_num
    rw [hrun1 3 16 (by norm_num) (hmf _ (by norm_num))]
    norm_num
    rw [hrun1 2 18 (by norm_num) (hmf _ (by norm_num))]
    norm_num
    rw [runLoop_stable _ 19 (1/3) 2 20 (by norm_num)]
  exact ⟨hsp, hfinal, by norm_num, by norm_num⟩

/-- Witness for C2: at concrete inputs, a non-event step adds the
multiplier, an in-window step adds `1`, the loop is stable past the end,
and the budget identity holds when `E < T`. -/
theorem C2_stepping_loop_witness :
    stepCursor ([] : List Event) 19 (1/3) 0
        = 0 + (speedMultiplier ([] : List Event) 19 (1/3)).1 ∧
    stepCursor
        [⟨4, "spike_plant", "Spike", "Site", some ⟨100, 100⟩, some ⟨100, 100⟩, none, none⟩]
        20 (1/2) 3 = 3 + 1 ∧
    runLoop ([] : List Event) 19 (1/3) 20 5 = 20 ∧
    ((targetFrames (1/3) : ℚ) - (eventFramesCount ([] : List Event) 19 (1/3) : ℚ)) *
        (speedMultiplier ([] : List Event) 19 (1/3)).1
      = ((19 - eventFramesCount ([] : List Event) 19 (1/3) : ℕ) : ℚ) := by
  have hwinB : windowOf (1/2)
      ⟨4, "spike_plant", "Spike", "Site", some ⟨100, 100⟩, some ⟨100, 100⟩, none, none⟩
      = (3, 5) := by
    rw [windowOf, if_pos rfl]
    norm_num [SPIKE_PRE, SPIKE_POST, pyInt]
  have h3 : isEventFrame
      [⟨4, "spike_plant", "Spike", "Site", some ⟨100, 100⟩, some ⟨100, 100⟩, none, none⟩]
      20 (1/2) ((⌊(3 : ℚ)⌋).toNat) = true := by
    rw [show (⌊(3 : ℚ)⌋).toNat = 3 from by rw [show ⌊(3 : ℚ)⌋ = (3 : ℤ) from by norm_num]; rfl,
      isEventFrame]
    simp only [List.any_cons, List.any_nil, Bool.or_false, hwinB]
    decide
  have h0 : isEventFrame ([] : List Event) 19 (1/3) ((⌊(0 : ℚ)⌋).toNat) = false := rfl
  have hE : eventFramesCount ([] : List Event) 19 (1/3) = 0 := by decide
  have hlt : ((eventFramesCount ([] : List Event) 19 (1/3) : ℤ)) < targetFrames (1/3) := by
    rw [hE, show targetFrames (1/3) = 10 from by norm_num [targetFrames, pyInt]]
    norm_num
  exact ⟨((C2_stepping_loop ([] : List Event) 19 (1/3)).1 0).2 h0,
    ((C2_stepping_loop
        [⟨4, "spike_plant", "Spike", "Site", some ⟨100, 100⟩, some ⟨100, 100⟩, none, none⟩]
        20 (1/2)).1 3).1 h3,
    (C2_stepping_loop ([] : List Event) 19 (1/3)).2.2.2.1 20 5 (by norm_num),
    (C2_stepping_loop ([] : List Event) 19 (1/3)).2.2.2.2 hlt⟩

end VT
